import Mathlib

/-!
Verification development for the chaser path-synchronization engine.

The Rust source is shallowly embedded: paths and file contents are strings
(modelled at the character-list level where the code does string surgery),
structured file contents are trees, the HashMap of path mappings is an
association list, and the real filesystem is an abstract oracle supplying
the results of existence checks and canonicalization.
-/

namespace Chaser

/-! ## Character-list machinery

Rust does its path and line surgery through `std::path::Path` components,
`str::lines`, `str::starts_with`, `str::contains` and `str::replace`.
We model those operations on `List Char` (the data of a `String`) so that
their algebra can be proved by list induction, using `List.splitOn` as the
splitter.
-/

theorem modifyHead_append_of_ne_nil {α : Type} (f : List α → List α)
    (l l' : List (List α)) (h : l ≠ []) :
    List.modifyHead f (l ++ l') = List.modifyHead f l ++ l' := by
  cases l with
  | nil => exact absurd rfl h
  | cons x xs => rfl

theorem splitOn_append_cons {α : Type} [DecidableEq α] (sep : α) (a b : List α) :
    (a ++ sep :: b).splitOn sep = a.splitOn sep ++ b.splitOn sep := by
  simp only [List.splitOn]
  induction a with
  | nil => simp [List.splitOnP_cons]
  | cons c rest ih =>
    simp only [List.cons_append, List.splitOnP_cons, ih]
    by_cases hc : c = sep
    · simp [hc]
    · have hne : List.splitOnP (· == sep) rest ≠ [] := List.splitOnP_ne_nil _ rest
      simp only [beq_iff_eq, if_neg hc]
      exact modifyHead_append_of_ne_nil _ _ _ hne

theorem mem_splitOn_sep_free {α : Type} [DecidableEq α] (sep : α) (l : List α) :
    ∀ p ∈ l.splitOn sep, sep ∉ p := by
  simp only [List.splitOn]
  induction l with
  | nil =>
    intro p hp
    simp only [List.splitOnP_nil, List.mem_singleton] at hp
    simp [hp]
  | cons c rest ih =>
    intro p hp
    rw [List.splitOnP_cons] at hp
    by_cases hc : c = sep
    · simp only [hc, beq_self_eq_true, if_pos] at hp
      rcases List.mem_cons.mp hp with h | h
      · simp [h]
      · exact ih p h
    · rw [if_neg (by simpa using hc)] at hp
      cases hrest : List.splitOnP (· == sep) rest with
      | nil => exact absurd hrest (List.splitOnP_ne_nil _ rest)
      | cons x xs =>
        rw [hrest] at hp
        simp only [List.modifyHead] at hp
        rcases List.mem_cons.mp hp with h | h
        · subst h
          intro hmem
          rcases List.mem_cons.mp hmem with h2 | h2
          · exact hc h2.symm
          · exact ih x (hrest ▸ List.mem_cons_self x xs) h2
        · exact ih p (hrest ▸ List.mem_cons_of_mem x h)

/-! ## String operations used by the Rust code -/

/-- Models Rust str::starts_with for string arguments (byte-prefix test,
modelled at character granularity). -/
def strStartsWith (s p : String) : Bool := p.data.isPrefixOf s.data

/-- Models Rust str::ends_with for string arguments. -/
def strEndsWith (s p : String) : Bool := p.data.isSuffixOf s.data

/-- Models Rust str::contains for string arguments (substring test). -/
def strContains (s sub : String) : Bool := decide (sub.data <:+: s.data)

/-- Models slicing a string from byte offset n to its end, as in line[n..]
(modelled at character granularity; faithful for single-byte content). -/
def strDrop (s : String) (n : Nat) : String := String.mk (s.data.drop n)

/-- Models Rust str::replace: replaces all non-overlapping occurrences of
pat, scanning left to right. Only used with the nonempty pattern the code
passes; for an empty pattern it returns the string unchanged. -/
def replaceAll (pat rep : List Char) : List Char → List Char
  | [] => []
  | c :: rest =>
    if pat ≠ [] ∧ pat.isPrefixOf (c :: rest) then
      rep ++ replaceAll pat rep ((c :: rest).drop pat.length)
    else c :: replaceAll pat rep rest
termination_by l => l.length
decreasing_by
  · simp only [List.length_drop, List.length_cons]
    rename_i hp
    have : 1 ≤ pat.length := by
      cases pat with
      | nil => exact absurd rfl hp.1
      | cons a b => simp
    omega
  · simp

/-- Models Rust str::lines (without carriage-return trimming, which the
tracked content never contains): splits on newline, dropping one final
empty piece produced by a trailing newline. -/
def rustLines (s : String) : List String :=
  (if (s.data.splitOn '\n').getLast? = some [] then (s.data.splitOn '\n').dropLast
   else s.data.splitOn '\n').map String.mk

/-- Models Vec::join applied to lines, as in updated_lines.join with a
newline separator. -/
def joinLines (l : List String) : String :=
  String.mk (List.intercalate ['\n'] (l.map String.data))

/-! ## Path component semantics

Models std::path for Unix-style paths: a path's components are the
slash-separated nonempty pieces, preceded by a root marker (the empty
piece) when the path is absolute. This matches std::path's behavior on
paths free of lone dot segments, which is the only shape the engine
manipulates.
-/

/-- Component list of a path string: root marker (empty piece) when
absolute, then the nonempty slash-separated pieces. -/
def pathComponents (s : String) : List (List Char) :=
  (if s.data.head? = some '/' then [([] : List Char)] else [])
    ++ (s.data.splitOn '/').filter (· ≠ [])

/-- Models std::path::Path::starts_with: component-wise prefix test. -/
def pathStartsWith (p base : String) : Bool :=
  (pathComponents base).isPrefixOf (pathComponents p)

/-- Models std::path::Path::strip_prefix: the components remaining after
removing the matched component prefix, or none when base is not a
component prefix. -/
def pathRelativeTo (p base : String) : Option (List (List Char)) :=
  if (pathComponents base).isPrefixOf (pathComponents p) then
    some ((pathComponents p).drop (pathComponents base).length)
  else none

/-- Models PathBuf::join with the relative remainder produced by
strip_prefix, followed by to_string_lossy: base, a separator, and the
remainder components rejoined with separators. -/
def pathJoin (base : String) (rel : List (List Char)) : String :=
  base ++ "/" ++ String.mk (List.intercalate ['/'] rel)

/-! ## The filesystem oracle

The engine consults the real filesystem for two things only: existence
checks (Path::exists) and canonicalization (Path::canonicalize, which
fails for paths that do not exist, upon which the code falls back to the
textual path). Both are modelled by an abstract oracle.
-/

structure FS where
  pathExistsOnDisk : String → Bool
  canon : String → Option String

/-- Canonicalize with the textual fallback the code uses everywhere:
canonicalize().unwrap_or_else(PathBuf::from(p)). -/
def canonOr (fs : FS) (p : String) : String := (fs.canon p).getD p

/-! ## Structured file trees

Models the parsed shapes the four format adapters walk: serde_json::Value,
serde_yaml_ng::Value and toml::Value all decompose into scalar strings,
sequences, string-keyed maps, and other scalars (numbers, booleans, null)
that every walker ignores. Mapping keys are kept as strings; the walkers
never visit or rewrite keys, so richer key shapes are irrelevant.
-/

mutual

inductive Tree where
  | str : String → Tree
  | scalar : Tree
  | seq : TreeList → Tree
  | table : TreeMap → Tree

inductive TreeList where
  | nil : TreeList
  | cons : Tree → TreeList → TreeList

inductive TreeMap where
  | nil : TreeMap
  | cons : String → Tree → TreeMap → TreeMap

end

/-! Walkers translated from TargetFile::update_json_value,
update_yaml_value and update_toml_value: replace each scalar string equal
to old_path with new_path, recursing into arrays/sequences and
objects/mappings/tables, ignoring other scalars. -/

mutual

def updateJsonValue (old_path new_path : String) : Tree → Tree
  | .str s => .str (if s = old_path then new_path else s)
  | .scalar => .scalar
  | .seq l => .seq (updateJsonList old_path new_path l)
  | .table m => .table (updateJsonMap old_path new_path m)

def updateJsonList (old_path new_path : String) : TreeList → TreeList
  | .nil => .nil
  | .cons v t => .cons (updateJsonValue old_path new_path v) (updateJsonList old_path new_path t)

def updateJsonMap (old_path new_path : String) : TreeMap → TreeMap
  | .nil => .nil
  | .cons k v t => .cons k (updateJsonValue old_path new_path v) (updateJsonMap old_path new_path t)

end

mutual

def updateYamlValue (old_path new_path : String) : Tree → Tree
  | .str s => .str (if s = old_path then new_path else s)
  | .scalar => .scalar
  | .seq l => .seq (updateYamlList old_path new_path l)
  | .table m => .table (updateYamlMap old_path new_path m)

def updateYamlList (old_path new_path : String) : TreeList → TreeList
  | .nil => .nil
  | .cons v t => .cons (updateYamlValue old_path new_path v) (updateYamlList old_path new_path t)

def updateYamlMap (old_path new_path : String) : TreeMap → TreeMap
  | .nil => .nil
  | .cons k v t => .cons k (updateYamlValue old_path new_path v) (updateYamlMap old_path new_path t)

end

mutual

def updateTomlValue (old_path new_path : String) : Tree → Tree
  | .str s => .str (if s = old_path then new_path else s)
  | .scalar => .scalar
  | .seq l => .seq (updateTomlList old_path new_path l)
  | .table m => .table (updateTomlMap old_path new_path m)

def updateTomlList (old_path new_path : String) : TreeList → TreeList
  | .nil => .nil
  | .cons v t => .cons (updateTomlValue old_path new_path v) (updateTomlList old_path new_path t)

def updateTomlMap (old_path new_path : String) : TreeMap → TreeMap
  | .nil => .nil
  | .cons k v t => .cons k (updateTomlValue old_path new_path v) (updateTomlMap old_path new_path t)

end

/-! Specification-side description of the walkers, following the claim:
apply the exact-match substitution to every scalar string value in the
tree, leave everything else alone. Used to compare against the
source-translated walkers. -/

/-- Exact-match substitution on one scalar string value, as the spec
words it: replaced when exactly equal to old, untouched otherwise. -/
def substExact (old new s : String) : String := if s = old then new else s

mutual

def treeMapStrings (f : String → String) : Tree → Tree
  | .str s => .str (f s)
  | .scalar => .scalar
  | .seq l => .seq (treeListMapStrings f l)
  | .table m => .table (treeMapMapStrings f m)

def treeListMapStrings (f : String → String) : TreeList → TreeList
  | .nil => .nil
  | .cons v t => .cons (treeMapStrings f v) (treeListMapStrings f t)

def treeMapMapStrings (f : String → String) : TreeMap → TreeMap
  | .nil => .nil
  | .cons k v t => .cons k (treeMapStrings f v) (treeMapMapStrings f t)

end

/-! ## CSV line rewriting -/

/-- Translated from TargetFile::update_csv_content: keep the header line,
rewrite each later line that starts with old_path by substituting its
leading old_path.len() characters with new_path, rejoin with newlines and
append a trailing newline. Empty content (no lines) is returned as is. -/
def update_csv_content (content old_path new_path : String) : String :=
  match rustLines content with
  | [] => content
  | header :: rest =>
    let updated := header ::
      rest.map (fun line =>
        if strStartsWith line old_path then
          new_path ++ strDrop line old_path.length
        else line)
    joinLines updated ++ "\n"

/-! ## Ignore matcher (src/lib.rs) -/

/-- Translated from is_directory_pattern: the pattern contains two stars. -/
def is_directory_pattern (pattern : String) : Bool := strContains pattern "**"

/-- Translated from is_extension_pattern: the pattern starts with star-dot. -/
def is_extension_pattern (pattern : String) : Bool := strStartsWith pattern "*."

/-- Translated from matches_directory_pattern: remove every occurrence of
slash-star-star from the pattern and test whether the path contains the
remainder as a substring. -/
def matches_directory_pattern (path pattern : String) : Bool :=
  strContains path (String.mk (replaceAll "/**".data [] pattern.data))

/-- Translated from matches_extension_pattern: when the pattern starts
with star-dot, test whether the path ends with the characters after it. -/
def matches_extension_pattern (path pattern : String) : Bool :=
  if strStartsWith pattern "*." then strEndsWith path (strDrop pattern 2)
  else false

/-- Translated from matches_ignore_pattern: directory patterns first, then
extension patterns, otherwise a verbatim substring test. -/
def matches_ignore_pattern (path pattern : String) : Bool :=
  if is_directory_pattern pattern then matches_directory_pattern path pattern
  else if is_extension_pattern pattern then matches_extension_pattern path pattern
  else strContains path pattern

/-- Translated from should_ignore_event: an event is represented by its
associated path list (its kind plays no role in the check); ignore when
some event path matches some pattern. -/
def should_ignore_event (eventPaths : List String) (ignore_patterns : List String) : Bool :=
  eventPaths.any (fun path =>
    ignore_patterns.any (fun pattern => matches_ignore_pattern path pattern))

/-! ## Target files (src/target_files.rs)

The on-disk file owned by a TargetFile is folded into the record as an
optional content (none models an absent file); the format enum is carried
by the content constructor. Parsing and serialization happen at the tree
level: a stored tree stands for its canonical serialization, and the csv
case stores the raw text because its rewriting is textual.
-/

structure PathEntry where
  path : String
  existsFlag : Bool
  last_known_path : Option String
deriving DecidableEq, Repr

inductive FileContent where
  | json : Tree → FileContent
  | yaml : Tree → FileContent
  | toml : Tree → FileContent
  | csv : String → FileContent

structure TargetFile where
  path : String
  paths : List PathEntry
  disk : Option FileContent

/-- Translated from the entry-metadata loop of TargetFile::update_path:
an entry whose path equals old_path records its previous path, takes the
new path and refreshes its existence flag from the filesystem. -/
def updateEntry (fs : FS) (old_path new_path : String) (e : PathEntry) : PathEntry :=
  if e.path = old_path then
    { e with
      last_known_path := some e.path
      path := new_path
      existsFlag := fs.pathExistsOnDisk new_path }
  else e

/-- Translated from the format dispatch of TargetFile::update_file_content
applied to parsed content: each tree format runs its walker, csv runs the
line rewriter. -/
def updateFileContent (old_path new_path : String) : FileContent → FileContent
  | .json v => .json (updateJsonValue old_path new_path v)
  | .yaml v => .yaml (updateYamlValue old_path new_path v)
  | .toml v => .toml (updateTomlValue old_path new_path v)
  | .csv s => .csv (update_csv_content s old_path new_path)

/-- Translated from TargetFile::update_path: update the in-memory entries,
then rewrite the file content unless the file is absent (in which case the
call still succeeds without writing). -/
def TargetFile.update_path (fs : FS) (tf : TargetFile) (old_path new_path : String) :
    TargetFile :=
  let tf := { tf with paths := tf.paths.map (updateEntry fs old_path new_path) }
  match tf.disk with
  | none => tf
  | some c => { tf with disk := some (updateFileContent old_path new_path c) }

/-- Translated from TargetFile::mark_path_deleted: clear the existence
flag of every entry whose path matches; no file content is touched. -/
def TargetFile.mark_path_deleted (tf : TargetFile) (p : String) : TargetFile :=
  { tf with paths := tf.paths.map (fun e =>
      if e.path = p then { e with existsFlag := false } else e) }

/-- Translated from TargetFile::mark_path_restored: set the existence
flag of every entry whose path matches; no file content is touched. -/
def TargetFile.mark_path_restored (tf : TargetFile) (p : String) : TargetFile :=
  { tf with paths := tf.paths.map (fun e =>
      if e.path = p then { e with existsFlag := true } else e) }

/-! ## Sync manager (src/path_sync.rs)

The HashMap of path mappings is modelled as an association list of
key-mapping pairs; HashMap's unique keys correspond to a no-duplicate-keys
side condition, and map iteration to list order.
-/

structure PathMapping where
  original_path : String
  current_path : String
  existsFlag : Bool
  target_files : List Nat
deriving DecidableEq, Repr

/-- Association-list lookup, modelling HashMap::get. -/
def lookupKey (l : List (String × PathMapping)) (k : String) : Option PathMapping :=
  (l.find? (fun q => q.1 = k)).map (·.2)

/-- Association-list removal, modelling HashMap::remove. -/
def removeKey (l : List (String × PathMapping)) (k : String) :
    List (String × PathMapping) :=
  l.filter (fun q => q.1 ≠ k)

/-- Association-list insertion, modelling HashMap::insert (replacing any
binding of the same key). -/
def insertKey (l : List (String × PathMapping)) (k : String) (v : PathMapping) :
    List (String × PathMapping) :=
  (k, v) :: removeKey l k

/-- Association-list in-place value update at a key, modelling mutation
through HashMap::get_mut. -/
def setKey (l : List (String × PathMapping)) (k : String) (v : PathMapping) :
    List (String × PathMapping) :=
  l.map (fun q => if q.1 = k then (q.1, v) else q)

structure ManagerState where
  target_files : List TargetFile
  path_mappings : List (String × PathMapping)
  watch_paths : List String

/-- Translated from the per-entry test of
PathSyncManager::filter_paths_in_watch_dirs: the entry path is rooted
under some watch path, comparing canonicalized forms (with textual
fallback) component-wise, or the raw strings component-wise. -/
def rootedInWatch (fs : FS) (watch_paths : List String) (p : String) : Bool :=
  watch_paths.any (fun watch_path =>
    pathStartsWith (canonOr fs p) (canonOr fs watch_path)
      || pathStartsWith p watch_path)

/-- Translated from PathSyncManager::filter_paths_in_watch_dirs. -/
def filter_paths_in_watch_dirs (fs : FS) (paths : List PathEntry)
    (watch_paths : List String) : List PathEntry :=
  paths.filter (fun e => rootedInWatch fs watch_paths e.path)

/-- Translated from the indexing step shared by PathSyncManager::new and
PathSyncManager::refresh: fan a new owner into an existing mapping for the
key, or insert a fresh mapping recording the entry's path and existence. -/
def addOwner (mappings : List (String × PathMapping)) (path_key : String)
    (entryExists : Bool) (index : Nat) : List (String × PathMapping) :=
  if (lookupKey mappings path_key).isSome then
    mappings.map (fun q =>
      if q.1 = path_key then
        (q.1, { q.2 with target_files := q.2.target_files ++ [index] })
      else q)
  else
    mappings ++ [(path_key,
      { original_path := path_key
        current_path := path_key
        existsFlag := entryExists
        target_files := [index] })]

/-- Translated from the index-construction loops of PathSyncManager::new
(lines 56-91) and PathSyncManager::refresh (lines 497-523), which run the
identical fold: for each target file in order, filter its entries to the
watch roots and index each surviving entry. -/
def buildMappings (fs : FS) (watch_paths : List String) (files : List TargetFile) :
    List (String × PathMapping) :=
  (files.enum).foldl
    (fun acc iq =>
      (filter_paths_in_watch_dirs fs iq.2.paths watch_paths).foldl
        (fun acc e => addOwner acc e.path e.existsFlag iq.1) acc)
    []

/-- Translated from the owner-file loops of the event handlers and of
sync_path_change: Vec::get_mut succeeds only for an in-bounds index, in
which case the file at that position is replaced by the updated file. -/
def updateFileAt (f : TargetFile → TargetFile) (files : List TargetFile) (idx : Nat) :
    List TargetFile :=
  match files[idx]? with
  | some tf => files.set idx (f tf)
  | none => files

/-- Translated from PathSyncManager::handle_path_removed: for the mapping
keyed by the removed path, clear its existence flag and mark the path
deleted in every owning target file; an untracked path is a no-op. -/
def handle_path_removed (st : ManagerState) (p : String) : ManagerState :=
  match lookupKey st.path_mappings p with
  | none => st
  | some mapping =>
    let mapping' := { mapping with existsFlag := false }
    let files := mapping.target_files.foldl
      (updateFileAt (fun tf => tf.mark_path_deleted p)) st.target_files
    { st with
      path_mappings := setKey st.path_mappings p mapping'
      target_files := files }

/-- Translated from PathSyncManager::handle_path_created: find the first
mapping whose current path equals the created path and whose existence
flag is clear, set its flag and mark the path restored in every owning
target file, then stop (the source loop breaks after one match). -/
def handle_path_created (st : ManagerState) (p : String) : ManagerState :=
  match st.path_mappings.find? (fun q => q.2.current_path = p && !q.2.existsFlag) with
  | none => st
  | some q =>
    let mapping' := { q.2 with existsFlag := true }
    let files := mapping'.target_files.foldl
      (updateFileAt (fun tf => tf.mark_path_restored p)) st.target_files
    { st with
      path_mappings := setKey st.path_mappings q.1 mapping'
      target_files := files }

/-! ### sync_path_change -/

/-- Translated from the should_update test of
PathSyncManager::sync_path_change: exact key match, or the key is a
sub-path of the old path canonically (with textual fallback) or
textually, component-wise. -/
def shouldUpdate (fs : FS) (current_key old_path : String) : Bool :=
  current_key = old_path
    || pathStartsWith (canonOr fs current_key) (canonOr fs old_path)
    || pathStartsWith current_key old_path

/-- Translated from the new-key computation of
PathSyncManager::sync_path_change: the new path for an exact match;
otherwise the new path joined with the remainder after stripping the old
path textually, then canonically, keeping the key when both fail. -/
def newKeyFor (fs : FS) (current_key old_path new_path : String) : String :=
  if current_key = old_path then new_path
  else
    match pathRelativeTo current_key old_path with
    | some rel => pathJoin new_path rel
    | none =>
      match pathRelativeTo (canonOr fs current_key) (canonOr fs old_path) with
      | some rel => pathJoin new_path rel
      | none => current_key

/-- Translated from the collection loop of
PathSyncManager::sync_path_change: every mapping whose key should update,
with its computed new key and a clone of the mapping. -/
def collectUpdates (fs : FS) (mappings : List (String × PathMapping))
    (old_path new_path : String) : List (String × String × PathMapping) :=
  (mappings.filter (fun q => shouldUpdate fs q.1 old_path)).map
    (fun q => (q.1, newKeyFor fs q.1 old_path new_path, q.2))

/-- Translated from the update loop body of
PathSyncManager::sync_path_change: rewrite every owning target file from
the old key to the new key, then reinsert the mapping under the new key
with its current path updated and its existence refreshed from disk. -/
def applyOneUpdate (fs : FS) (st : ManagerState)
    (u : String × String × PathMapping) : ManagerState :=
  let files := u.2.2.target_files.foldl
    (updateFileAt (fun tf => tf.update_path fs u.1 u.2.1)) st.target_files
  let mapping := { u.2.2 with
    current_path := u.2.1
    existsFlag := fs.pathExistsOnDisk u.2.1 }
  { st with
    target_files := files
    path_mappings := insertKey (removeKey st.path_mappings u.1) u.2.1 mapping }

inductive SyncOutcome where
  | notFound : SyncOutcome
  | ok : SyncOutcome
deriving DecidableEq, Repr

/-- Translated from PathSyncManager::sync_path_change: collect the
mappings to update; when none match, report not-found and change nothing
(the Rust call still returns Ok); otherwise apply every update in
iteration order. -/
def sync_path_change (fs : FS) (st : ManagerState) (old_path new_path : String) :
    SyncOutcome × ManagerState :=
  let updates := collectUpdates fs st.path_mappings old_path new_path
  if updates.isEmpty then (.notFound, st)
  else (.ok, updates.foldl (applyOneUpdate fs) st)

/-! ### Monitoring (src/path_sync.rs, start_monitoring)

Translated from PathSyncManager::start_monitoring lines 199-211: the
spawned worker closure captures fresh reference-counted structures built
from clones of the manager's target files and path mappings
(Arc::new(Mutex::new(self.target_files.clone())) and likewise for the
mappings), so the worker thereafter reads and mutates that cloned pair
while the manager's own methods keep using its original fields.
-/

structure MonitoredSystem where
  foreground : ManagerState
  workerFiles : Option (List TargetFile)
  workerMappings : Option (List (String × PathMapping))

/-- Translated from start_monitoring: the worker state is initialized as a
clone of the foreground state at spawn time. -/
def start_monitoring (st : ManagerState) : MonitoredSystem :=
  { foreground := st
    workerFiles := some st.target_files
    workerMappings := some st.path_mappings }

/-- A Remove event processed by the background worker: handle_path_removed
runs against the worker's cloned structures only. -/
def backgroundRemove (sys : MonitoredSystem) (p : String) : MonitoredSystem :=
  match sys.workerFiles, sys.workerMappings with
  | some files, some mappings =>
    let st' := handle_path_removed
      { target_files := files
        path_mappings := mappings
        watch_paths := sys.foreground.watch_paths } p
    { sys with
      workerFiles := some st'.target_files
      workerMappings := some st'.path_mappings }
  | _, _ => sys

/-! ## Theorems -/

/-! ### Bridges between the Bool operations and Prop relations -/

theorem strStartsWith_iff (s p : String) : strStartsWith s p = true ↔ p.data <+: s.data := by
  simp [strStartsWith, List.isPrefixOf_iff_prefix]

theorem strEndsWith_iff (s p : String) : strEndsWith s p = true ↔ p.data <:+ s.data := by
  simp [strEndsWith, List.isSuffixOf_iff_suffix]

theorem strContains_iff (s sub : String) : strContains s sub = true ↔ sub.data <:+: s.data := by
  simp [strContains]

/-- Per-pattern characterization of the matcher: pattern shape is decided
by containment of two stars first, then a star-dot head, otherwise the
pattern is a verbatim substring test. -/
theorem matches_ignore_pattern_iff (path pattern : String) :
    matches_ignore_pattern path pattern = true ↔
      (if ("**".data <:+: pattern.data) then
        replaceAll "/**".data [] pattern.data <:+: path.data
      else if ("*.".data <+: pattern.data) then
        pattern.data.drop 2 <:+ path.data
      else pattern.data <:+: path.data) := by
  unfold matches_ignore_pattern is_directory_pattern is_extension_pattern
  by_cases hdir : ("**".data <:+: pattern.data)
  · rw [if_pos hdir, if_pos (by simpa [strContains_iff] using hdir)]
    unfold matches_directory_pattern
    simpa using strContains_iff path (String.mk (replaceAll "/**".data [] pattern.data))
  · rw [if_neg hdir, if_neg (by simpa [strContains_iff] using hdir)]
    by_cases hext : ("*.".data <+: pattern.data)
    · rw [if_pos hext, if_pos (by simpa [strStartsWith_iff] using hext)]
      unfold matches_extension_pattern
      rw [if_pos (by simpa [strStartsWith_iff] using hext)]
      simpa using strEndsWith_iff path (strDrop pattern 2)
    · rw [if_neg hext, if_neg (by simpa [strStartsWith_iff] using hext)]
      exact strContains_iff path pattern

/-- C7: the ignore check returns true exactly when some path of the event
matches some pattern, where a pattern containing two stars matches when
the path contains the pattern with its slash-star-star occurrences
stripped as a substring, a pattern starting star-dot matches when the
path ends with the characters after the star-dot, and any other pattern
matches when the path contains it verbatim; matching is exact character
comparison (hence case-sensitive), an empty pattern list never ignores,
and an event with no paths is never ignored (both are instances of the
equivalence, whose right side is false over an empty list). -/
theorem should_ignore_event_spec (eventPaths ignore_patterns : List String) :
    should_ignore_event eventPaths ignore_patterns = true ↔
      ∃ path ∈ eventPaths, ∃ pattern ∈ ignore_patterns,
        (if ("**".data <:+: pattern.data) then
          replaceAll "/**".data [] pattern.data <:+: path.data
        else if ("*.".data <+: pattern.data) then
          pattern.data.drop 2 <:+ path.data
        else pattern.data <:+: path.data) := by
  unfold should_ignore_event
  rw [List.any_eq_true]
  constructor
  · rintro ⟨path, hpath, hmatch⟩
    rw [List.any_eq_true] at hmatch
    rcases hmatch with ⟨pattern, hpattern, hm⟩
    exact ⟨path, hpath, pattern, hpattern, (matches_ignore_pattern_iff path pattern).mp hm⟩
  · rintro ⟨path, hpath, pattern, hpattern, hm⟩
    refine ⟨path, hpath, ?_⟩
    rw [List.any_eq_true]
    exact ⟨pattern, hpattern, (matches_ignore_pattern_iff path pattern).mpr hm⟩

/-! ### The tree walkers perform exact-match substitution (C3) -/

mutual

theorem updateJsonValue_eq_mapStrings (old_path new_path : String) :
    (v : Tree) → updateJsonValue old_path new_path v
      = treeMapStrings (substExact old_path new_path) v
  | .str _ => rfl
  | .scalar => rfl
  | .seq l => congrArg Tree.seq (updateJsonList_eq_mapStrings old_path new_path l)
  | .table m => congrArg Tree.table (updateJsonMap_eq_mapStrings old_path new_path m)

theorem updateJsonList_eq_mapStrings (old_path new_path : String) :
    (l : TreeList) → updateJsonList old_path new_path l
      = treeListMapStrings (substExact old_path new_path) l
  | .nil => rfl
  | .cons v t => by
    rw [updateJsonList, treeListMapStrings,
      updateJsonValue_eq_mapStrings old_path new_path v,
      updateJsonList_eq_mapStrings old_path new_path t]

theorem updateJsonMap_eq_mapStrings (old_path new_path : String) :
    (m : TreeMap) → updateJsonMap old_path new_path m
      = treeMapMapStrings (substExact old_path new_path) m
  | .nil => rfl
  | .cons k v t => by
    rw [updateJsonMap, treeMapMapStrings,
      updateJsonValue_eq_mapStrings old_path new_path v,
      updateJsonMap_eq_mapStrings old_path new_path t]

end

mutual

theorem updateYamlValue_eq_mapStrings (old_path new_path : String) :
    (v : Tree) → updateYamlValue old_path new_path v
      = treeMapStrings (substExact old_path new_path) v
  | .str _ => rfl
  | .scalar => rfl
  | .seq l => congrArg Tree.seq (updateYamlList_eq_mapStrings old_path new_path l)
  | .table m => congrArg Tree.table (updateYamlMap_eq_mapStrings old_path new_path m)

theorem updateYamlList_eq_mapStrings (old_path new_path : String) :
    (l : TreeList) → updateYamlList old_path new_path l
      = treeListMapStrings (substExact old_path new_path) l
  | .nil => rfl
  | .cons v t => by
    rw [updateYamlList, treeListMapStrings,
      updateYamlValue_eq_mapStrings old_path new_path v,
      updateYamlList_eq_mapStrings old_path new_path t]

theorem updateYamlMap_eq_mapStrings (old_path new_path : String) :
    (m : TreeMap) → updateYamlMap old_path new_path m
      = treeMapMapStrings (substExact old_path new_path) m
  | .nil => rfl
  | .cons k v t => by
    rw [updateYamlMap, treeMapMapStrings,
      updateYamlValue_eq_mapStrings old_path new_path v,
      updateYamlMap_eq_mapStrings old_path new_path t]

end

mutual

theorem updateTomlValue_eq_mapStrings (old_path new_path : String) :
    (v : Tree) → updateTomlValue old_path new_path v
      = treeMapStrings (substExact old_path new_path) v
  | .str _ => rfl
  | .scalar => rfl
  | .seq l => congrArg Tree.seq (updateTomlList_eq_mapStrings old_path new_path l)
  | .table m => congrArg Tree.table (updateTomlMap_eq_mapStrings old_path new_path m)

theorem updateTomlList_eq_mapStrings (old_path new_path : String) :
    (l : TreeList) → updateTomlList old_path new_path l
      = treeListMapStrings (substExact old_path new_path) l
  | .nil => rfl
  | .cons v t => by
    rw [updateTomlList, treeListMapStrings,
      updateTomlValue_eq_mapStrings old_path new_path v,
      updateTomlList_eq_mapStrings old_path new_path t]

theorem updateTomlMap_eq_mapStrings (old_path new_path : String) :
    (m : TreeMap) → updateTomlMap old_path new_path m
      = treeMapMapStrings (substExact old_path new_path) m
  | .nil => rfl
  | .cons k v t => by
    rw [updateTomlMap, treeMapMapStrings,
      updateTomlValue_eq_mapStrings old_path new_path v,
      updateTomlMap_eq_mapStrings old_path new_path t]

end

/-- C3: on all three tree formats, the rewrite walker performs the
specified exact-match substitution: the updated tree is the original with
the substExact substitution applied to every scalar string value, so a
value exactly equal to old is replaced by new, and any value different
from old, in particular one merely containing old as a proper fragment
(such as old with a suffix appended), is left unchanged. -/
theorem update_tree_values_exact_match (old_path new_path : String) :
    (∀ v : Tree, updateJsonValue old_path new_path v
        = treeMapStrings (substExact old_path new_path) v)
    ∧ (∀ v : Tree, updateYamlValue old_path new_path v
        = treeMapStrings (substExact old_path new_path) v)
    ∧ (∀ v : Tree, updateTomlValue old_path new_path v
        = treeMapStrings (substExact old_path new_path) v)
    ∧ (∀ s : String, s = old_path → substExact old_path new_path s = new_path)
    ∧ (∀ s : String, s ≠ old_path → substExact old_path new_path s = s)
    ∧ (∀ suffix : String, suffix ≠ ""
        → substExact old_path new_path (old_path ++ suffix) = old_path ++ suffix) :=
  ⟨updateJsonValue_eq_mapStrings old_path new_path,
   updateYamlValue_eq_mapStrings old_path new_path,
   updateTomlValue_eq_mapStrings old_path new_path,
   fun s hs => by simp [substExact, hs],
   fun s hs => by simp [substExact, hs],
   fun suffix hs => by
    have : old_path ++ suffix ≠ old_path := by
      intro h
      apply hs
      have := congrArg String.length h
      simp only [String.length_append] at this
      have hlen : suffix.length = 0 := by omega
      cases suffix with
      | mk data => cases data with
        | nil => rfl
        | cons c cs => simp [String.length, List.length] at hlen
    simp [substExact, this]⟩

/-! ### CSV rewriting (C4, C10) -/

theorem rustLines_pieces_newline_free (s : String) :
    ∀ line ∈ rustLines s, '\n' ∉ line.data := by
  intro line hline
  unfold rustLines at hline
  rcases List.mem_map.mp hline with ⟨piece, hpiece, hmk⟩
  have hmem : piece ∈ s.data.splitOn '\n' := by
    by_cases h : (s.data.splitOn '\n').getLast? = some []
    · rw [if_pos h] at hpiece
      exact List.dropLast_subset _ hpiece
    · rw [if_neg h] at hpiece
      exact hpiece
  subst hmk
  exact mem_splitOn_sep_free '\n' s.data piece hmem

theorem rustLines_joinLines_newline (parts : List String) (hne : parts ≠ [])
    (hfree : ∀ p ∈ parts, '\n' ∉ p.data) :
    rustLines (joinLines parts ++ "\n") = parts := by
  have hdata : (joinLines parts ++ "\n").data
      = List.intercalate ['\n'] (parts.map String.data) ++ '\n' :: [] := by
    rw [String.data_append]
    rfl
  have hsplit : (joinLines parts ++ "\n").data.splitOn '\n'
      = parts.map String.data ++ [[]] := by
    rw [hdata, splitOn_append_cons]
    congr 1
    exact List.splitOn_intercalate (parts.map String.data) '\n'
      (by
        intro l hl
        rcases List.mem_map.mp hl with ⟨p, hp, rfl⟩
        exact hfree p hp)
      (by simpa using hne)
  unfold rustLines
  rw [hsplit]
  split
  · simp [List.map_map, show (String.mk ∘ String.data) = id from funext fun s => rfl]
  · rename_i hcond
    exact absurd (by simp) hcond

/-- Specification-side row rewrite following the claim for C4: rewrite
exactly those data rows whose leading comma-separated field equals old,
replacing the leading span with new; used only to compare against the
source-translated update_csv_content. -/
def claimCsvUpdate (content old_path new_path : String) : String :=
  match rustLines content with
  | [] => content
  | header :: rest =>
    joinLines (header :: rest.map (fun line =>
      if String.mk (line.data.takeWhile (· ≠ ',')) = old_path then
        new_path ++ strDrop line old_path.length
      else line)) ++ "\n"

/-- C4 counterexample: a data row whose leading field is a strict
extension of old still starts with old as a string, so the code rewrites
it, while the claim says a row whose leading field does not equal old is
preserved; the two disagree on this input. -/
theorem update_csv_content_counterexample :
    update_csv_content "path,type\n/a/bc,file\n" "/a/b" "/x"
        = "path,type\n/xc,file\n"
    ∧ claimCsvUpdate "path,type\n/a/bc,file\n" "/a/b" "/x"
        = "path,type\n/a/bc,file\n"
    ∧ ("path,type\n/xc,file\n" : String) ≠ "path,type\n/a/bc,file\n" := by
  refine ⟨by decide, by decide, by decide⟩

/-- C4 amended: update_csv_content keeps the header line and rewrites
exactly those data rows that start with old as a string prefix (in
particular every row whose leading field equals old, but also any row
whose leading field strictly extends old), substituting the leading
old.length characters with new; rows not starting with old are kept
verbatim, and the lines are rejoined with a trailing newline. -/
theorem update_csv_content_rows (content old_path new_path : String)
    (hnew : '\n' ∉ new_path.data) (header : String) (rest : List String)
    (hlines : rustLines content = header :: rest) :
    rustLines (update_csv_content content old_path new_path)
      = header :: rest.map (fun line =>
          if strStartsWith line old_path then
            new_path ++ strDrop line old_path.length
          else line)
    ∧ (∀ line, ¬ (old_path.data <+: line.data) →
        (if strStartsWith line old_path then
          new_path ++ strDrop line old_path.length
        else line) = line)
    ∧ (∀ line, old_path.data <+: line.data →
        (if strStartsWith line old_path then
          new_path ++ strDrop line old_path.length
        else line) = new_path ++ strDrop line old_path.length) := by
  refine ⟨?_, ?_, ?_⟩
  · unfold update_csv_content
    rw [hlines]
    apply rustLines_joinLines_newline
    · simp
    · intro p hp
      rcases List.mem_cons.mp hp with h | h
      · subst h
        exact rustLines_pieces_newline_free content p (hlines ▸ List.mem_cons_self _ _)
      · rcases List.mem_map.mp h with ⟨line, hline, rfl⟩
        have hlinefree : '\n' ∉ line.data :=
          rustLines_pieces_newline_free content line
            (hlines ▸ List.mem_cons_of_mem _ hline)
        split
        · rw [String.data_append]
          intro hmem
          rcases List.mem_append.mp hmem with h2 | h2
          · exact hnew h2
          · exact hlinefree (List.mem_of_mem_drop h2)
        · exact hlinefree
  · intro line hnp
    rw [if_neg (by simpa [strStartsWith_iff] using hnp)]
  · intro line hp
    rw [if_pos (by simpa [strStartsWith_iff] using hp)]

/-- C10: when the target file is absent on disk, update_path succeeds
without writing: the result keeps the absent disk, and every in-memory
entry whose path equals old has its last_known_path set to old, its path
set to new and its existence flag refreshed by the filesystem check of
new, while every other entry is unchanged. -/
theorem update_path_absent_disk (fs : FS) (tf : TargetFile)
    (old_path new_path : String) (h : tf.disk = none) :
    tf.update_path fs old_path new_path
      = { tf with paths := tf.paths.map (fun e =>
          if e.path = old_path then
            { path := new_path
              existsFlag := fs.pathExistsOnDisk new_path
              last_known_path := some old_path }
          else e) } := by
  unfold TargetFile.update_path
  simp only [h]
  congr 1
  apply List.map_congr_left
  intro e _
  unfold updateEntry
  by_cases he : e.path = old_path
  · simp [he]
  · simp [he]

/-- Witness for the C3 theorem at a concrete input: substitution applies
at an exact match and skips a value extending old. -/
theorem update_tree_values_exact_match_witness :
    updateJsonValue "/w/a" "/w/b" (.seq (.cons (.str "/w/a") (.cons (.str "/w/ax") .nil)))
        = treeMapStrings (substExact "/w/a" "/w/b")
            (.seq (.cons (.str "/w/a") (.cons (.str "/w/ax") .nil)))
    ∧ substExact "/w/a" "/w/b" "/w/a" = "/w/b"
    ∧ substExact "/w/a" "/w/b" ("/w/a" ++ "x") = "/w/a" ++ "x" :=
  ⟨(update_tree_values_exact_match "/w/a" "/w/b").1 _,
   (update_tree_values_exact_match "/w/a" "/w/b").2.2.2.1 "/w/a" rfl,
   (update_tree_values_exact_match "/w/a" "/w/b").2.2.2.2.2 "x" (by decide)⟩

/-- Witness for the C4 amended theorem at a concrete csv content. -/
theorem update_csv_content_rows_witness :
    rustLines (update_csv_content "path,type\n/w/a,file\nother,x\n" "/w/a" "/w/b")
      = "path,type" :: (["/w/a,file", "other,x"].map (fun line =>
          if strStartsWith line "/w/a" then
            "/w/b" ++ strDrop line ("/w/a" : String).length
          else line)) :=
  (update_csv_content_rows "path,type\n/w/a,file\nother,x\n" "/w/a" "/w/b"
    (by decide) "path,type" ["/w/a,file", "other,x"] (by decide)).1

/-- Witness for the C10 theorem: a concrete absent-on-disk target file. -/
theorem update_path_absent_disk_witness :
    TargetFile.update_path ⟨fun _ => false, fun _ => none⟩
      { path := "links.json"
        paths := [⟨"/w/a", true, none⟩, ⟨"/w/keep", true, none⟩]
        disk := none } "/w/a" "/w/b"
      = { path := "links.json"
          paths := [⟨"/w/b", false, some "/w/a"⟩, ⟨"/w/keep", true, none⟩]
          disk := none } := by
  rw [update_path_absent_disk ⟨fun _ => false, fun _ => none⟩ _ "/w/a" "/w/b" rfl]
  rfl

/-! ### Untracked paths are a no-op (C5) -/

/-- C5: when no path mapping's key matches old (neither exactly nor as a
sub-path), sync_path_change reports not-found — the Rust function still
returns Ok — and returns the state entirely unchanged: the path index,
every target file's in-memory entries and every target file's on-disk
content are those of the input state. -/
theorem sync_path_change_untracked (fs : FS) (st : ManagerState)
    (old_path new_path : String)
    (h : ∀ q ∈ st.path_mappings, shouldUpdate fs q.1 old_path = false) :
    sync_path_change fs st old_path new_path = (.notFound, st) := by
  unfold sync_path_change collectUpdates
  have hfilter : st.path_mappings.filter (fun q => shouldUpdate fs q.1 old_path) = [] := by
    rw [List.filter_eq_nil_iff]
    intro q hq
    simp [h q hq]
  simp [hfilter]

/-- Witness for the C5 theorem: a state tracking one unrelated path. -/
theorem sync_path_change_untracked_witness :
    sync_path_change ⟨fun _ => false, fun _ => none⟩
      { target_files := [{ path := "links.json"
                           paths := [⟨"/w/other", true, none⟩]
                           disk := some (.json (.str "/w/other")) }]
        path_mappings := [("/w/other", ⟨"/w/other", "/w/other", true, [0]⟩)]
        watch_paths := ["/w"] } "/w/a" "/w/b"
      = (.notFound,
        { target_files := [{ path := "links.json"
                             paths := [⟨"/w/other", true, none⟩]
                             disk := some (.json (.str "/w/other")) }]
          path_mappings := [("/w/other", ⟨"/w/other", "/w/other", true, [0]⟩)]
          watch_paths := ["/w"] }) :=
  sync_path_change_untracked ⟨fun _ => false, fun _ => none⟩ _ "/w/a" "/w/b"
    (by decide)

/-! ### The worker operates on cloned state (C9) -/

/-- C9 (code defect): start_monitoring builds the worker's structures as
clones of the manager's target files and path mappings instead of sharing
one guarded structure, so a mutation made by the background worker (here,
a Remove event clearing the existence flag of a tracked path) is not
observed by the foreground manager: afterwards the worker's mapping for
the path carries existsFlag false while the foreground mapping still
carries existsFlag true, and the two views have diverged. -/
theorem start_monitoring_worker_state_diverges :
    (((backgroundRemove
          (start_monitoring
            { target_files := [{ path := "links.json"
                                 paths := [⟨"/w/a", true, none⟩]
                                 disk := some (.json (.str "/w/a")) }]
              path_mappings := [("/w/a", ⟨"/w/a", "/w/a", true, [0]⟩)]
              watch_paths := ["/w"] }) "/w/a").workerMappings.map
        (fun l => (lookupKey l "/w/a").map (·.existsFlag)))
        = some (some false))
    ∧ (((lookupKey
          (backgroundRemove
            (start_monitoring
              { target_files := [{ path := "links.json"
                                   paths := [⟨"/w/a", true, none⟩]
                                   disk := some (.json (.str "/w/a")) }]
                path_mappings := [("/w/a", ⟨"/w/a", "/w/a", true, [0]⟩)]
                watch_paths := ["/w"] }) "/w/a").foreground.path_mappings
          "/w/a").map (·.existsFlag))
        = some true) :=
  ⟨rfl, rfl⟩

/-! ### Filtering invariant of index construction (C6) -/

/-- Key presence in the association list. -/
def hasKey (l : List (String × PathMapping)) (k : String) : Bool :=
  (lookupKey l k).isSome

theorem lookupKey_isSome_map (l : List (String × PathMapping))
    (f : (String × PathMapping) → (String × PathMapping))
    (hf : ∀ q, (f q).1 = q.1) (k : String) :
    (lookupKey (l.map f) k).isSome = (lookupKey l k).isSome := by
  induction l with
  | nil => rfl
  | cons q rest ih =>
    unfold lookupKey at *
    rw [List.map_cons]
    by_cases hq : q.1 = k
    · rw [List.find?_cons_of_pos _ (by simp [hf q, hq]),
        List.find?_cons_of_pos _ (by simp [hq])]
      simp
    · rw [List.find?_cons_of_neg _ (by simp [hf q, hq]),
        List.find?_cons_of_neg _ (by simp [hq])]
      exact ih

theorem hasKey_addOwner_iff (acc : List (String × PathMapping)) (k' : String)
    (b : Bool) (i : Nat) (k : String) :
    hasKey (addOwner acc k' b i) k = true ↔ (hasKey acc k = true ∨ k = k') := by
  unfold addOwner
  by_cases hk' : (lookupKey acc k').isSome
  · rw [if_pos hk']
    unfold hasKey
    rw [lookupKey_isSome_map _ _ (fun q => by by_cases h : q.1 = k' <;> simp [h]) k]
    constructor
    · exact Or.inl
    · rintro (h | h)
      · exact h
      · subst h
        exact hk'
  · rw [if_neg hk']
    unfold hasKey lookupKey
    rw [List.find?_append]
    simp only [Option.isSome_map', Option.isSome_or]
    by_cases hkk : k = k'
    · subst hkk
      rw [List.find?_cons_of_pos _ (by simp)]
      simp
    · rw [List.find?_cons_of_neg _ (by simp; exact fun h => hkk h.symm)]
      simp [hkk]

theorem hasKey_foldl_addOwner_iff (entries : List PathEntry) (i : Nat)
    (acc : List (String × PathMapping)) (k : String) :
    hasKey (entries.foldl (fun a e => addOwner a e.path e.existsFlag i) acc) k = true
      ↔ (hasKey acc k = true ∨ ∃ e ∈ entries, e.path = k) := by
  induction entries generalizing acc with
  | nil => simp
  | cons e rest ih =>
    rw [List.foldl_cons, ih, hasKey_addOwner_iff]
    constructor
    · rintro ((h | h) | ⟨e', he', hp⟩)
      · exact Or.inl h
      · exact Or.inr ⟨e, List.mem_cons_self e rest, h.symm⟩
      · exact Or.inr ⟨e', List.mem_cons_of_mem e he', hp⟩
    · rintro (h | ⟨e', he', hp⟩)
      · exact Or.inl (Or.inl h)
      · rcases List.mem_cons.mp he' with h1 | h1
        · subst h1
          exact Or.inl (Or.inr hp.symm)
        · exact Or.inr ⟨e', h1, hp⟩

theorem hasKey_buildMappings_iff (fs : FS) (watch_paths : List String)
    (files : List TargetFile) (k : String) :
    hasKey (buildMappings fs watch_paths files) k = true
      ↔ ∃ iq ∈ files.enum, ∃ e ∈ filter_paths_in_watch_dirs fs iq.2.paths watch_paths,
          e.path = k := by
  unfold buildMappings
  have hgen : ∀ (L : List (Nat × TargetFile)) (acc : List (String × PathMapping)),
      hasKey (L.foldl (fun acc iq =>
          (filter_paths_in_watch_dirs fs iq.2.paths watch_paths).foldl
            (fun acc e => addOwner acc e.path e.existsFlag iq.1) acc) acc) k = true
        ↔ (hasKey acc k = true
            ∨ ∃ iq ∈ L, ∃ e ∈ filter_paths_in_watch_dirs fs iq.2.paths watch_paths,
                e.path = k) := by
    intro L
    induction L with
    | nil => simp
    | cons iq rest ih =>
      intro acc
      rw [List.foldl_cons, ih, hasKey_foldl_addOwner_iff]
      constructor
      · rintro ((h | h) | ⟨iq', hiq', he'⟩)
        · exact Or.inl h
        · exact Or.inr ⟨iq, List.mem_cons_self iq rest, h⟩
        · exact Or.inr ⟨iq', List.mem_cons_of_mem iq hiq', he'⟩
      · rintro (h | ⟨iq', hiq', he'⟩)
        · exact Or.inl (Or.inl h)
        · rcases List.mem_cons.mp hiq' with h1 | h1
          · subst h1
            exact Or.inl (Or.inr he')
          · exact Or.inr ⟨iq', h1, he'⟩
  rw [hgen]
  simp [hasKey, lookupKey]

/-- C6: after the index construction shared by the constructor and by
refresh, a path entry loaded from any target file has its path present as
a key of the path index exactly when the path is rooted (lexically or
canonically) under at least one configured watch root; entries outside
all roots stay in the owning target file's entry sequence (the
construction reads but never alters the files) while their paths are
absent from the index. -/
theorem buildMappings_filtering_invariant (fs : FS) (watch_paths : List String)
    (files : List TargetFile) (i : Nat) (tf : TargetFile)
    (htf : files[i]? = some tf) (e : PathEntry) (he : e ∈ tf.paths) :
    hasKey (buildMappings fs watch_paths files) e.path = true
      ↔ rootedInWatch fs watch_paths e.path = true := by
  rw [hasKey_buildMappings_iff]
  constructor
  · rintro ⟨iq, _, e', he', hpath⟩
    have hrooted : rootedInWatch fs watch_paths e'.path = true :=
      (List.mem_filter.mp he').2
    rwa [hpath] at hrooted
  · intro h
    exact ⟨(i, tf), List.mk_mem_enum_iff_getElem?.mpr htf, e,
      List.mem_filter.mpr ⟨he, h⟩, rfl⟩

/-- Witness for the C6 theorem: one file with one entry inside the watch
root and one outside; the inside path is indexed, the outside one is not. -/
theorem buildMappings_filtering_invariant_witness :
    (hasKey (buildMappings ⟨fun _ => false, fun _ => none⟩ ["/w"]
        [{ path := "links.json"
           paths := [⟨"/w/a", false, none⟩, ⟨"/elsewhere/b", false, none⟩]
           disk := none }]) "/w/a" = true
      ↔ rootedInWatch ⟨fun _ => false, fun _ => none⟩ ["/w"] "/w/a" = true)
    ∧ (hasKey (buildMappings ⟨fun _ => false, fun _ => none⟩ ["/w"]
        [{ path := "links.json"
           paths := [⟨"/w/a", false, none⟩, ⟨"/elsewhere/b", false, none⟩]
           disk := none }]) "/elsewhere/b" = true
      ↔ rootedInWatch ⟨fun _ => false, fun _ => none⟩ ["/w"] "/elsewhere/b" = true)
    ∧ hasKey (buildMappings ⟨fun _ => false, fun _ => none⟩ ["/w"]
        [{ path := "links.json"
           paths := [⟨"/w/a", false, none⟩, ⟨"/elsewhere/b", false, none⟩]
           disk := none }]) "/w/a" = true
    ∧ hasKey (buildMappings ⟨fun _ => false, fun _ => none⟩ ["/w"]
        [{ path := "links.json"
           paths := [⟨"/w/a", false, none⟩, ⟨"/elsewhere/b", false, none⟩]
           disk := none }]) "/elsewhere/b" = false :=
  ⟨buildMappings_filtering_invariant _ _ _ 0 _ rfl ⟨"/w/a", false, none⟩
      (by simp),
   buildMappings_filtering_invariant _ _ _ 0 _ rfl ⟨"/elsewhere/b", false, none⟩
      (by simp),
   by decide, by decide⟩

/-! ### Tombstone and restore behavior of the event handlers (C8) -/

theorem lookupKey_mem {l : List (String × PathMapping)} {k : String} {m : PathMapping}
    (h : lookupKey l k = some m) : (k, m) ∈ l := by
  unfold lookupKey at h
  cases hf : l.find? (fun q => q.1 = k) with
  | none => rw [hf] at h; simp at h
  | some q =>
    rw [hf] at h
    have hq1 : q.1 = k := by simpa using List.find?_some hf
    have hq2 : q.2 = m := by simpa using h
    have : q = (k, m) := by
      cases q
      simp_all
    exact this ▸ List.mem_of_find?_eq_some hf

theorem lookupKey_setKey_self {l : List (String × PathMapping)} {k : String}
    {m : PathMapping} (v : PathMapping) (h : lookupKey l k = some m) :
    lookupKey (setKey l k v) k = some v := by
  unfold lookupKey setKey at *
  induction l with
  | nil => simp at h
  | cons q rest ih =>
    rw [List.map_cons]
    by_cases hq : q.1 = k
    · rw [if_pos hq, List.find?_cons_of_pos _ (by simp [hq])]
      simp
    · rw [if_neg hq, List.find?_cons_of_neg _ (by simp [hq])]
      rw [List.find?_cons_of_neg _ (by simp [hq])] at h
      exact ih h

theorem lookupKey_setKey_ne (l : List (String × PathMapping)) (k k' : String)
    (v : PathMapping) (hne : k' ≠ k) :
    lookupKey (setKey l k v) k' = lookupKey l k' := by
  unfold lookupKey setKey
  induction l with
  | nil => rfl
  | cons q rest ih =>
    rw [List.map_cons]
    by_cases hq : q.1 = k
    · have hqk' : ¬ q.1 = k' := fun h => hne (by rw [← h]; exact hq)
      rw [if_pos hq]
      rw [List.find?_cons_of_neg _ (by simp [hqk']),
        List.find?_cons_of_neg _ (by simp [hqk'])]
      exact ih
    · rw [if_neg hq]
      by_cases hq' : q.1 = k'
      · rw [List.find?_cons_of_pos _ (by simp [hq']),
          List.find?_cons_of_pos _ (by simp [hq'])]
      · rw [List.find?_cons_of_neg _ (by simp [hq']),
          List.find?_cons_of_neg _ (by simp [hq'])]
        exact ih

theorem getElem?_updateFileAt (f : TargetFile → TargetFile) (files : List TargetFile)
    (i j : Nat) :
    (updateFileAt f files i)[j]?
      = if j = i then (files[j]?).map f else files[j]? := by
  unfold updateFileAt
  by_cases hj : j = i
  · subst hj
    cases hfi : files[j]? with
    | none => simp [hfi]
    | some tf =>
      have hlt : j < files.length := by
        by_contra hge
        rw [List.getElem?_eq_none (by omega)] at hfi
        simp at hfi
      simp [hfi, List.getElem?_set_self hlt]
  · cases hfi : files[i]? with
    | none => simp [hj]
    | some tf => simp [List.getElem?_set_ne (fun h => hj h.symm), hj]

theorem getElem?_foldl_updateFileAt (f : TargetFile → TargetFile)
    (hf : ∀ tf, f (f tf) = f tf) (idxs : List Nat) (files : List TargetFile) (j : Nat) :
    (idxs.foldl (updateFileAt f) files)[j]?
      = if j ∈ idxs then (files[j]?).map f else files[j]? := by
  induction idxs generalizing files with
  | nil => simp
  | cons i rest ih =>
    rw [List.foldl_cons, ih, getElem?_updateFileAt]
    by_cases hj : j = i
    · subst hj
      by_cases hr : j ∈ rest
      · rw [if_pos hr, if_pos (List.mem_cons_self j rest), if_pos rfl]
        cases files[j]? with
        | none => rfl
        | some tf => simp [hf]
      · rw [if_neg hr, if_pos rfl, if_pos (List.mem_cons_self j rest)]
    · by_cases hr : j ∈ rest
      · rw [if_pos hr, if_neg hj, if_pos (List.mem_cons_of_mem i hr)]
      · rw [if_neg hr, if_neg hj,
          if_neg (by simp [List.mem_cons, hj, hr])]

theorem mark_path_deleted_idem (tf : TargetFile) (p : String) :
    (tf.mark_path_deleted p).mark_path_deleted p = tf.mark_path_deleted p := by
  unfold TargetFile.mark_path_deleted
  simp only [List.map_map]
  congr 1
  apply List.map_congr_left
  intro e _
  by_cases he : e.path = p <;> simp [he]

theorem mark_path_restored_idem (tf : TargetFile) (p : String) :
    (tf.mark_path_restored p).mark_path_restored p = tf.mark_path_restored p := by
  unfold TargetFile.mark_path_restored
  simp only [List.map_map]
  congr 1
  apply List.map_congr_left
  intro e _
  by_cases he : e.path = p <;> simp [he]

theorem find?_setKey_created (p : String) (m' : PathMapping)
    (hcur : m'.current_path = p) (hex : m'.existsFlag = false) :
    ∀ l : List (String × PathMapping), hasKey l p = true →
      (∀ q ∈ l, q.2.current_path = q.1) →
      (setKey l p m').find? (fun q => q.2.current_path = p && !q.2.existsFlag)
        = some (p, m')
  | [] => by intro hl _; simp [hasKey, lookupKey] at hl
  | q :: rest => by
    intro hl hinv
    unfold setKey
    rw [List.map_cons]
    by_cases hq : q.1 = p
    · rw [if_pos hq, List.find?_cons_of_pos _ (by simp [hcur, hex])]
      simp [hq]
    · rw [if_neg hq,
        List.find?_cons_of_neg _ (by simp [hinv q (List.mem_cons_self q rest), hq])]
      have hl' : hasKey rest p = true := by
        unfold hasKey lookupKey at hl ⊢
        rwa [List.find?_cons_of_neg _ (by simp [hq])] at hl
      exact find?_setKey_created p m' hcur hex rest hl'
        (fun q' hq' => hinv q' (List.mem_cons_of_mem q hq'))

/-- C8: on a state whose index satisfies the key-equals-current-path
invariant, handling a Remove event for a tracked path p clears the exists
flag of the mapping keyed by p while retaining it under its key (a
tombstone), leaves every other mapping untouched, and marks the matching
entries deleted in every owning target file; handling a subsequent Create
event for p, whose mapping's exists flag is now false, flips the flag
back to true under the same key and marks the matching entries restored
in every owning target file, leaving everything else unchanged. -/
theorem remove_then_create_tombstone (st : ManagerState) (p : String)
    (m : PathMapping) (hm : lookupKey st.path_mappings p = some m)
    (hinv : ∀ q ∈ st.path_mappings, q.2.current_path = q.1) :
    (lookupKey (handle_path_removed st p).path_mappings p
        = some { m with existsFlag := false })
    ∧ (∀ k, k ≠ p →
        lookupKey (handle_path_removed st p).path_mappings k
          = lookupKey st.path_mappings k)
    ∧ (∀ j, (handle_path_removed st p).target_files[j]?
        = if j ∈ m.target_files then
            (st.target_files[j]?).map (fun tf => tf.mark_path_deleted p)
          else st.target_files[j]?)
    ∧ (lookupKey (handle_path_created (handle_path_removed st p) p).path_mappings p
        = some { m with existsFlag := true })
    ∧ (∀ k, k ≠ p →
        lookupKey (handle_path_created (handle_path_removed st p) p).path_mappings k
          = lookupKey st.path_mappings k)
    ∧ (∀ j, (handle_path_created (handle_path_removed st p) p).target_files[j]?
        = if j ∈ m.target_files then
            (st.target_files[j]?).map
              (fun tf => (tf.mark_path_deleted p).mark_path_restored p)
          else st.target_files[j]?) := by
  have hcur : m.current_path = p := hinv (p, m) (lookupKey_mem hm)
  have hrm : handle_path_removed st p
      = { st with
          path_mappings := setKey st.path_mappings p { m with existsFlag := false }
          target_files := m.target_files.foldl
            (updateFileAt (fun tf => tf.mark_path_deleted p)) st.target_files } := by
    unfold handle_path_removed
    rw [hm]
  have ha : lookupKey (handle_path_removed st p).path_mappings p
      = some { m with existsFlag := false } := by
    rw [hrm]
    exact lookupKey_setKey_self _ hm
  have hinv' : ∀ q ∈ (handle_path_removed st p).path_mappings,
      q.2.current_path = q.1 := by
    rw [hrm]
    intro q hq
    rcases List.mem_map.mp hq with ⟨q0, hq0, hmap⟩
    by_cases h0 : q0.1 = p
    · rw [if_pos h0] at hmap
      rw [← hmap]
      show m.current_path = q0.1
      rw [h0]
      exact hcur
    · rw [if_neg h0] at hmap
      rw [← hmap]
      exact hinv q0 hq0
  have hfind : (handle_path_created (handle_path_removed st p) p)
      = { handle_path_removed st p with
          path_mappings := setKey (handle_path_removed st p).path_mappings p
            { m with existsFlag := true }
          target_files := m.target_files.foldl
            (updateFileAt (fun tf => tf.mark_path_restored p))
            (handle_path_removed st p).target_files } := by
    unfold handle_path_created
    rw [show (handle_path_removed st p).path_mappings.find?
          (fun q => q.2.current_path = p && !q.2.existsFlag)
        = some (p, { m with existsFlag := false }) by
      rw [hrm]
      exact find?_setKey_created p { m with existsFlag := false } hcur rfl
        st.path_mappings (by simp [hasKey, hm]) hinv]
  refine ⟨ha, ?_, ?_, ?_, ?_, ?_⟩
  · intro k hk
    rw [hrm]
    exact lookupKey_setKey_ne _ _ _ _ hk
  · intro j
    rw [hrm]
    exact getElem?_foldl_updateFileAt _ (fun tf => mark_path_deleted_idem tf p) _ _ j
  · rw [hfind]
    exact lookupKey_setKey_self _ ha
  · intro k hk
    rw [hfind]
    rw [lookupKey_setKey_ne _ _ _ _ hk, hrm]
    exact lookupKey_setKey_ne _ _ _ _ hk
  · intro j
    rw [hfind]
    rw [getElem?_foldl_updateFileAt _ (fun tf => mark_path_restored_idem tf p) _ _ j]
    rw [hrm]
    rw [getElem?_foldl_updateFileAt _ (fun tf => mark_path_deleted_idem tf p) _ _ j]
    by_cases hj : j ∈ m.target_files
    · rw [if_pos hj, if_pos hj, if_pos hj, Option.map_map]
      rfl
    · rw [if_neg hj, if_neg hj, if_neg hj]

/-- Witness for the C8 theorem: a tracked path in one target file. -/
theorem remove_then_create_tombstone_witness :
    (lookupKey (handle_path_removed
        { target_files := [{ path := "links.json"
                             paths := [⟨"/w/a", true, none⟩]
                             disk := some (.json (.str "/w/a")) }]
          path_mappings := [("/w/a", ⟨"/w/a", "/w/a", true, [0]⟩)]
          watch_paths := ["/w"] } "/w/a").path_mappings "/w/a"
      = some ⟨"/w/a", "/w/a", false, [0]⟩)
    ∧ (lookupKey (handle_path_created (handle_path_removed
        { target_files := [{ path := "links.json"
                             paths := [⟨"/w/a", true, none⟩]
                             disk := some (.json (.str "/w/a")) }]
          path_mappings := [("/w/a", ⟨"/w/a", "/w/a", true, [0]⟩)]
          watch_paths := ["/w"] } "/w/a") "/w/a").path_mappings "/w/a"
      = some ⟨"/w/a", "/w/a", true, [0]⟩) := by
  have h := remove_then_create_tombstone
    { target_files := [{ path := "links.json"
                         paths := [⟨"/w/a", true, none⟩]
                         disk := some (.json (.str "/w/a")) }]
      path_mappings := [("/w/a", ⟨"/w/a", "/w/a", true, [0]⟩)]
      watch_paths := ["/w"] } "/w/a" ⟨"/w/a", "/w/a", true, [0]⟩ rfl
    (by
      intro q hq
      simp only [List.mem_singleton] at hq
      rw [hq])
  exact ⟨h.1, h.2.2.2.1⟩

/-! ### Characterization of the sync_path_change update fold (C1, C2) -/

/-- The mapping as reinserted by the update loop: the collected mapping
with its current path moved to the new key and its existence refreshed. -/
def migratedMapping (fs : FS) (u : String × String × PathMapping) : PathMapping :=
  { u.2.2 with current_path := u.2.1, existsFlag := fs.pathExistsOnDisk u.2.1 }

theorem lookupKey_removeKey (l : List (String × PathMapping)) (k k' : String) :
    lookupKey (removeKey l k) k' = if k' = k then none else lookupKey l k' := by
  unfold lookupKey removeKey
  induction l with
  | nil => simp
  | cons q rest ih =>
    by_cases hq : q.1 = k
    · rw [List.filter_cons_of_neg (by simp [hq])]
      by_cases hk' : k' = k
      · simp [hk']
      · have hqk' : ¬ q.1 = k' := fun h => hk' (h ▸ hq)
        rw [if_neg hk']
        rw [List.find?_cons_of_neg _
          (by simp only [decide_eq_true_eq]; exact hqk')]
        simpa [hk'] using ih
    · rw [List.filter_cons_of_pos (by simp [hq])]
      by_cases hqk' : q.1 = k'
      · rw [List.find?_cons_of_pos _ (by simp [hqk']),
          List.find?_cons_of_pos _ (by simp [hqk'])]
        rw [if_neg (fun h : k' = k => hq (hqk'.symm ▸ h ▸ rfl))]
      · rw [List.find?_cons_of_neg _ (by simp [hqk']),
          List.find?_cons_of_neg _ (by simp [hqk'])]
        exact ih

theorem lookupKey_insertKey (l : List (String × PathMapping)) (k k' : String)
    (v : PathMapping) :
    lookupKey (insertKey l k v) k' = if k' = k then some v else lookupKey l k' := by
  unfold insertKey
  by_cases hk : k' = k
  · subst hk
    unfold lookupKey
    rw [List.find?_cons_of_pos _ (by simp)]
    simp
  · rw [if_neg hk]
    have hstep : lookupKey ((k, v) :: removeKey l k) k' = lookupKey (removeKey l k) k' := by
      unfold lookupKey
      rw [List.find?_cons_of_neg _
        (by simp only [decide_eq_true_eq]; exact fun h => hk h.symm)]
    rw [hstep, lookupKey_removeKey, if_neg hk]

theorem lookupKey_applyOneUpdate (fs : FS) (st : ManagerState)
    (u : String × String × PathMapping) (k : String) :
    lookupKey (applyOneUpdate fs st u).path_mappings k
      = if k = u.2.1 then some (migratedMapping fs u)
        else if k = u.1 then none
        else lookupKey st.path_mappings k := by
  show lookupKey (insertKey (removeKey st.path_mappings u.1) u.2.1 _) k = _
  rw [lookupKey_insertKey, lookupKey_removeKey]
  rfl

theorem find?_eq_some_of_unique {α : Type} (p : α → Bool) (l : List α) (a : α)
    (ha : a ∈ l) (hp : p a = true) (huniq : ∀ b ∈ l, p b = true → b = a) :
    l.find? p = some a := by
  induction l with
  | nil => simp at ha
  | cons x rest ih =>
    by_cases hx : p x = true
    · rw [List.find?_cons_of_pos _ hx]
      rw [huniq x (List.mem_cons_self x rest) hx]
    · rw [List.find?_cons_of_neg _ hx]
      rcases List.mem_cons.mp ha with h | h
      · exact absurd (h ▸ hp) hx
      · exact ih h (fun b hb hpb => huniq b (List.mem_cons_of_mem x hb) hpb)

/-- Resolution of one key after the update fold: the migrated mapping of
the update that targets the key, nothing if an update vacated the key, or
the previous binding. -/
def foldSpec (fs : FS) (upds : List (String × String × PathMapping)) (k : String)
    (base : Option PathMapping) : Option PathMapping :=
  match upds.find? (fun u => u.2.1 = k) with
  | some u => some (migratedMapping fs u)
  | none => if upds.any (fun u => u.1 = k) then none else base

theorem foldSpec_find_some {fs : FS} {upds : List (String × String × PathMapping)}
    {k : String} {u : String × String × PathMapping} (base : Option PathMapping)
    (h : upds.find? (fun u => u.2.1 = k) = some u) :
    foldSpec fs upds k base = some (migratedMapping fs u) := by
  unfold foldSpec
  rw [h]

theorem foldSpec_find_none {fs : FS} {upds : List (String × String × PathMapping)}
    {k : String} (base : Option PathMapping)
    (h : upds.find? (fun u => u.2.1 = k) = none) :
    foldSpec fs upds k base = if upds.any (fun u => u.1 = k) then none else base := by
  unfold foldSpec
  rw [h]

/-- Lookup characterization of the whole update fold: under distinctness
of the collected old keys, distinctness of the computed new keys, and the
condition that a computed new key can only collide with the old key of
its own update, the fold resolves every key according to foldSpec. -/
theorem lookupKey_applyUpdates (fs : FS) :
    ∀ (upds : List (String × String × PathMapping)) (st : ManagerState),
      (upds.map (fun u => u.1)).Nodup →
      (upds.map (fun u => u.2.1)).Nodup →
      (∀ u ∈ upds, ∀ u' ∈ upds, u.2.1 = u'.1 → u.2.1 = u.1) →
      ∀ k, lookupKey (upds.foldl (applyOneUpdate fs) st).path_mappings k
        = foldSpec fs upds k (lookupKey st.path_mappings k)
  | [], st => by
    intro _ _ _ k
    rw [List.foldl_nil, foldSpec_find_none _ (by simp)]
    simp
  | u :: rest, st => by
    intro hold hnew hcond k
    rw [List.foldl_cons]
    rw [lookupKey_applyUpdates fs rest (applyOneUpdate fs st u)
      (by simpa using hold.of_cons)
      (by simpa using hnew.of_cons)
      (fun a ha b hb => hcond a (List.mem_cons_of_mem u ha) b (List.mem_cons_of_mem u hb))
      k]
    by_cases hku : k = u.2.1
    · subst hku
      have hrestfind : rest.find? (fun u' => u'.2.1 = u.2.1) = none := by
        rw [List.find?_eq_none]
        intro u' hu' hpred
        have : u.2.1 ∈ rest.map (fun u => u.2.1) :=
          List.mem_map.mpr ⟨u', hu', by simpa using hpred⟩
        exact (List.nodup_cons.mp hnew).1 this
      have hrestany : rest.any (fun u' => u'.1 = u.2.1) = false := by
        rw [List.any_eq_false]
        intro u' hu'
        simp only [decide_eq_true_eq]
        intro hpred
        have h1 : u.2.1 = u.1 := hcond u (List.mem_cons_self u rest) u'
          (List.mem_cons_of_mem u hu') hpred.symm
        have : u.1 ∈ rest.map (fun u => u.1) :=
          List.mem_map.mpr ⟨u', hu', by rw [hpred, ← h1]⟩
        exact (List.nodup_cons.mp hold).1 this
      rw [foldSpec_find_none _ hrestfind, hrestany,
        foldSpec_find_some _ (List.find?_cons_of_pos rest (by simp))]
      simp only [Bool.false_eq_true, if_false]
      rw [lookupKey_applyOneUpdate, if_pos rfl]
    · have hheadpred : ¬ ((fun u' : String × String × PathMapping
          => decide (u'.2.1 = k)) u = true) := by
        simp only [decide_eq_true_eq]
        exact fun h => hku h.symm
      cases hrf : rest.find? (fun u' => u'.2.1 = k) with
      | some u' =>
        rw [foldSpec_find_some (lookupKey (applyOneUpdate fs st u).path_mappings k) hrf,
          foldSpec_find_some _ ((List.find?_cons_of_neg rest hheadpred).trans hrf)]
      | none =>
        rw [foldSpec_find_none _ hrf,
          foldSpec_find_none _ ((List.find?_cons_of_neg rest hheadpred).trans hrf)]
        by_cases hka : rest.any (fun u' => u'.1 = k) = true
        · rw [if_pos hka, if_pos (by simp [List.any_cons, hka])]
        · rw [if_neg (by simpa using hka)]
          by_cases hk1 : u.1 = k
          · rw [if_pos (by simp [List.any_cons, hk1])]
            rw [lookupKey_applyOneUpdate, if_neg hku, if_pos hk1.symm]
          · rw [if_neg (by simp [List.any_cons, hk1]; simpa using hka)]
            rw [lookupKey_applyOneUpdate, if_neg hku,
              if_neg (fun h : k = u.1 => hk1 h.symm)]

/-! ### Clean path shapes

The prefix-substitution behavior of sync_path_change is characterized on
cleanly-written paths: a nonempty old path, and descendant keys written as
old, a separator, and a remainder with no empty pieces (no doubled,
leading or trailing separators in the remainder). These are the shapes
the engine actually indexes; on them, component surgery agrees with plain
string surgery.
-/

theorem string_ext {a b : String} (h : a.data = b.data) : a = b := by
  cases a
  cases b
  exact congrArg String.mk h

theorem head?_append_of_ne_nil {α : Type} (a b : List α) (h : a ≠ []) :
    (a ++ b).head? = a.head? := by
  cases a with
  | nil => exact absurd rfl h
  | cons x xs => rfl

/-- A clean relative path: nonempty, with every slash-separated piece
nonempty. -/
def cleanRel (s : String) : Bool :=
  s.data ≠ [] && (s.data.splitOn '/').all (· ≠ [])

/-- The key k is a clean descendant of old: k extends old by a separator
and a clean relative remainder. -/
def cleanDescendant (k old : String) : Bool :=
  (old ++ "/").data.isPrefixOf k.data && cleanRel (strDrop k (old.length + 1))

theorem cleanDescendant_decomp {k old : String} (h : cleanDescendant k old = true) :
    k = old ++ "/" ++ strDrop k (old.length + 1)
      ∧ cleanRel (strDrop k (old.length + 1)) = true := by
  unfold cleanDescendant at h
  rw [Bool.and_eq_true] at h
  rcases h with ⟨hpre, hclean⟩
  refine ⟨?_, hclean⟩
  rcases List.isPrefixOf_iff_prefix.mp hpre with ⟨t, ht⟩
  have hlen : (old ++ "/").data.length = old.length + 1 := by
    rw [String.data_append]
    show (old.data ++ ['/']).length = old.data.length + 1
    simp
  have hdrop : (strDrop k (old.length + 1)).data = t := by
    show k.data.drop (old.length + 1) = t
    rw [← ht, ← hlen, List.drop_left]
  apply string_ext
  rw [show old ++ "/" ++ strDrop k (old.length + 1)
      = (old ++ "/") ++ strDrop k (old.length + 1) from rfl]
  rw [String.data_append, hdrop]
  exact ht.symm

theorem data_append3 (old r : String) :
    (old ++ "/" ++ r).data = old.data ++ '/' :: r.data := by
  rw [String.data_append, String.data_append]
  simp

theorem pathComponents_append (old r : String) (hold : old.data ≠ [])
    (hr : cleanRel r = true) :
    pathComponents (old ++ "/" ++ r) = pathComponents old ++ r.data.splitOn '/' := by
  rw [cleanRel, Bool.and_eq_true] at hr
  rcases hr with ⟨_, hpieces⟩
  have hfilter : (r.data.splitOn '/').filter (· ≠ []) = r.data.splitOn '/' := by
    rw [List.filter_eq_self]
    intro x hx
    have := List.all_eq_true.mp hpieces x hx
    simpa using this
  unfold pathComponents
  rw [data_append3, splitOn_append_cons, List.filter_append, hfilter,
    head?_append_of_ne_nil _ _ hold]
  rw [List.append_assoc]

theorem pathStartsWith_append (old r : String) (hold : old.data ≠ [])
    (hr : cleanRel r = true) :
    pathStartsWith (old ++ "/" ++ r) old = true := by
  unfold pathStartsWith
  rw [List.isPrefixOf_iff_prefix, pathComponents_append old r hold hr]
  exact List.prefix_append _ _

theorem pathRelativeTo_append (old r : String) (hold : old.data ≠ [])
    (hr : cleanRel r = true) :
    pathRelativeTo (old ++ "/" ++ r) old = some (r.data.splitOn '/') := by
  unfold pathRelativeTo
  rw [if_pos (by
    rw [List.isPrefixOf_iff_prefix, pathComponents_append old r hold hr]
    exact List.prefix_append _ _)]
  rw [pathComponents_append old r hold hr, List.drop_left]

theorem pathJoin_splitOn (new_path r : String) :
    pathJoin new_path (r.data.splitOn '/') = new_path ++ "/" ++ r := by
  unfold pathJoin
  have : String.mk (List.intercalate ['/'] (r.data.splitOn '/')) = r := by
    apply string_ext
    show List.intercalate ['/'] (r.data.splitOn '/') = r.data
    exact List.intercalate_splitOn r.data '/'
  rw [this]

theorem append_sep_ne (old r : String) (hr : r.data ≠ []) :
    old ++ "/" ++ r ≠ old := by
  intro h
  have := congrArg String.length h
  rw [String.length_append, String.length_append] at this
  have hrlen : 0 < r.length := by
    show 0 < r.data.length
    exact List.length_pos.mpr hr
  have : old.length + 1 + r.length = old.length := by simpa using this
  omega

theorem cleanRel_data_ne_nil {r : String} (h : cleanRel r = true) : r.data ≠ [] := by
  rw [cleanRel, Bool.and_eq_true] at h
  simpa using h.1

theorem newKeyFor_cleanDescendant (fs : FS) (old new_path k : String)
    (hold : old.data ≠ []) (hk : cleanDescendant k old = true) :
    newKeyFor fs k old new_path = new_path ++ "/" ++ strDrop k (old.length + 1) := by
  rcases cleanDescendant_decomp hk with ⟨hdec, hclean⟩
  generalize hgen : strDrop k (old.length + 1) = r at hdec hclean ⊢
  have hrne : r.data ≠ [] := cleanRel_data_ne_nil hclean
  unfold newKeyFor
  rw [if_neg (by rw [hdec]; exact append_sep_ne old _ hrne)]
  rw [show pathRelativeTo k old = some (r.data.splitOn '/') by
    rw [hdec]
    exact pathRelativeTo_append old _ hold hclean]
  exact pathJoin_splitOn new_path _

theorem shouldUpdate_cleanDescendant (fs : FS) (old k : String)
    (hold : old.data ≠ []) (hk : cleanDescendant k old = true) :
    shouldUpdate fs k old = true := by
  rcases cleanDescendant_decomp hk with ⟨hdec, hclean⟩
  generalize hgen : strDrop k (old.length + 1) = r at hdec hclean
  unfold shouldUpdate
  rw [hdec]
  rw [pathStartsWith_append old _ hold hclean]
  simp

theorem shouldUpdate_self (fs : FS) (old : String) :
    shouldUpdate fs old old = true := by
  unfold shouldUpdate
  simp

theorem newKeyFor_self (fs : FS) (old new_path : String) :
    newKeyFor fs old old new_path = new_path := by
  unfold newKeyFor
  rw [if_pos rfl]

/-! ### Rename propagation over the index (C1) -/

theorem sync_path_change_eq_fold (fs : FS) (st : ManagerState)
    (old_path new_path : String) :
    (sync_path_change fs st old_path new_path).2
      = (collectUpdates fs st.path_mappings old_path new_path).foldl
          (applyOneUpdate fs) st := by
  by_cases h : (collectUpdates fs st.path_mappings old_path new_path).isEmpty
  · simp only [sync_path_change, h, if_true]
    rw [List.isEmpty_iff.mp h]
    rfl
  · simp only [sync_path_change, h, if_false]
    rfl

theorem newKeyFor_inj (fs : FS) (old_path new_path : String)
    (hold : old_path.data ≠ []) (k₁ k₂ : String)
    (h₁ : k₁ = old_path ∨ cleanDescendant k₁ old_path = true)
    (h₂ : k₂ = old_path ∨ cleanDescendant k₂ old_path = true)
    (heq : newKeyFor fs k₁ old_path new_path = newKeyFor fs k₂ old_path new_path) :
    k₁ = k₂ := by
  rcases h₁ with h₁ | h₁ <;> rcases h₂ with h₂ | h₂
  · rw [h₁, h₂]
  · subst h₁
    rw [newKeyFor_self, newKeyFor_cleanDescendant fs _ _ _ hold h₂] at heq
    exfalso
    have hrne := cleanRel_data_ne_nil (cleanDescendant_decomp h₂).2
    exact append_sep_ne new_path _ hrne heq.symm
  · subst h₂
    rw [newKeyFor_self, newKeyFor_cleanDescendant fs _ _ _ hold h₁] at heq
    exfalso
    have hrne := cleanRel_data_ne_nil (cleanDescendant_decomp h₁).2
    exact append_sep_ne new_path _ hrne heq
  · rw [newKeyFor_cleanDescendant fs _ _ _ hold h₁,
      newKeyFor_cleanDescendant fs _ _ _ hold h₂] at heq
    have hdata := congrArg String.data heq
    rw [data_append3, data_append3] at hdata
    have hcons := List.append_cancel_left hdata
    have hr : strDrop k₁ (old_path.length + 1) = strDrop k₂ (old_path.length + 1) :=
      string_ext (List.cons.injEq _ _ _ _ ▸ hcons).2
    rw [(cleanDescendant_decomp h₁).1, (cleanDescendant_decomp h₂).1, hr]

/-- C1: sync_path_change recomputes, for every mapping whose key equals
old exactly or is a clean descendant of old (old a proper path-prefix),
the key by substituting the old prefix with new — wholesale for the exact
match, prefix-only for a descendant, preserving the remainder — removes
the mapping from its old key and reinserts it (current path moved,
existence refreshed) under the new key, while every mapping whose key
matches neither way keeps its key and its mapping untouched. Stated over
states with duplicate-free keys whose every key is old, a clean
descendant of old, or no sub-path of old at all, and with the substituted
keys not colliding with existing ones (as with any real rename). -/
theorem sync_path_change_renames_keys (fs : FS) (st : ManagerState)
    (old_path new_path : String) (hold : old_path.data ≠ [])
    (hnodup : (st.path_mappings.map Prod.fst).Nodup)
    (htri : ∀ q ∈ st.path_mappings,
      q.1 = old_path ∨ cleanDescendant q.1 old_path = true
        ∨ shouldUpdate fs q.1 old_path = false)
    (hfresh : ∀ q ∈ st.path_mappings, shouldUpdate fs q.1 old_path = true →
      newKeyFor fs q.1 old_path new_path ∉ st.path_mappings.map Prod.fst) :
    ∀ k m, lookupKey st.path_mappings k = some m →
      ((k = old_path →
          newKeyFor fs k old_path new_path = new_path
          ∧ lookupKey (sync_path_change fs st old_path new_path).2.path_mappings
              new_path
            = some { m with
                current_path := new_path
                existsFlag := fs.pathExistsOnDisk new_path }
          ∧ lookupKey (sync_path_change fs st old_path new_path).2.path_mappings k
            = none)
      ∧ (cleanDescendant k old_path = true →
          newKeyFor fs k old_path new_path
              = new_path ++ "/" ++ strDrop k (old_path.length + 1)
          ∧ lookupKey (sync_path_change fs st old_path new_path).2.path_mappings
              (new_path ++ "/" ++ strDrop k (old_path.length + 1))
            = some { m with
                current_path := new_path ++ "/" ++ strDrop k (old_path.length + 1)
                existsFlag := fs.pathExistsOnDisk
                  (new_path ++ "/" ++ strDrop k (old_path.length + 1)) }
          ∧ lookupKey (sync_path_change fs st old_path new_path).2.path_mappings k
            = none)
      ∧ (shouldUpdate fs k old_path = false →
          lookupKey (sync_path_change fs st old_path new_path).2.path_mappings k
            = some m)) := by
  intro k m hm
  have hmem : (k, m) ∈ st.path_mappings := lookupKey_mem hm
  have hkmem : k ∈ st.path_mappings.map Prod.fst := List.mem_map.mpr ⟨(k, m), hmem, rfl⟩
  have hup_mem : ∀ u, u ∈ collectUpdates fs st.path_mappings old_path new_path
      ↔ ∃ q ∈ st.path_mappings,
          shouldUpdate fs q.1 old_path = true
          ∧ u = (q.1, newKeyFor fs q.1 old_path new_path, q.2) := by
    intro u
    unfold collectUpdates
    constructor
    · intro hu
      rcases List.mem_map.mp hu with ⟨q, hq, rfl⟩
      have hq' := List.mem_filter.mp hq
      exact ⟨q, hq'.1, by simpa using hq'.2, rfl⟩
    · rintro ⟨q, hq, hsu, rfl⟩
      exact List.mem_map.mpr ⟨q, List.mem_filter.mpr ⟨hq, by simpa using hsu⟩, rfl⟩
  have hnodup_old : ((collectUpdates fs st.path_mappings old_path new_path).map
      (fun u => u.1)).Nodup := by
    unfold collectUpdates
    rw [List.map_map]
    exact List.Nodup.sublist (List.Sublist.map _ (List.filter_sublist _)) hnodup
  have htri2 : ∀ q ∈ st.path_mappings, shouldUpdate fs q.1 old_path = true →
      q.1 = old_path ∨ cleanDescendant q.1 old_path = true := by
    intro q hq hsu
    rcases htri q hq with h | h | h
    · exact Or.inl h
    · exact Or.inr h
    · rw [h] at hsu
      exact absurd hsu (by simp)
  have hnodup_new : ((collectUpdates fs st.path_mappings old_path new_path).map
      (fun u => u.2.1)).Nodup := by
    unfold collectUpdates
    rw [List.map_map]
    apply List.Nodup.map_on
    · intro q₁ hq₁ q₂ hq₂ heq
      have hm₁ := List.mem_filter.mp hq₁
      have hm₂ := List.mem_filter.mp hq₂
      have h₁ := htri2 q₁ hm₁.1 (by simpa using hm₁.2)
      have h₂ := htri2 q₂ hm₂.1 (by simpa using hm₂.2)
      have hk12 : q₁.1 = q₂.1 :=
        newKeyFor_inj fs old_path new_path hold q₁.1 q₂.1 h₁ h₂ heq
      exact List.inj_on_of_nodup_map hnodup hm₁.1 hm₂.1 hk12
    · exact List.Nodup.sublist (List.filter_sublist _) (List.Nodup.of_map _ hnodup)
  have hcond : ∀ u ∈ collectUpdates fs st.path_mappings old_path new_path,
      ∀ u' ∈ collectUpdates fs st.path_mappings old_path new_path,
        u.2.1 = u'.1 → u.2.1 = u.1 := by
    intro u hu u' hu' hcoll
    exfalso
    rcases (hup_mem u).mp hu with ⟨q, hq, hsu, rfl⟩
    rcases (hup_mem u').mp hu' with ⟨q', hq', hsu', rfl⟩
    apply hfresh q hq hsu
    rw [show (q.1, newKeyFor fs q.1 old_path new_path, q.2).2.1
        = newKeyFor fs q.1 old_path new_path from rfl] at hcoll
    rw [hcoll]
    exact List.mem_map.mpr ⟨q', hq', rfl⟩
  have hchar := lookupKey_applyUpdates fs
    (collectUpdates fs st.path_mappings old_path new_path) st
    hnodup_old hnodup_new hcond
  have hres := sync_path_change_eq_fold fs st old_path new_path
  have hfind_none : ∀ k' ∈ st.path_mappings.map Prod.fst,
      (collectUpdates fs st.path_mappings old_path new_path).find?
        (fun u => u.2.1 = k') = none := by
    intro k' hk'
    rw [List.find?_eq_none]
    intro u hu hpred
    rcases (hup_mem u).mp hu with ⟨q, hq, hsu, rfl⟩
    apply hfresh q hq hsu
    have : newKeyFor fs q.1 old_path new_path = k' := by simpa using hpred
    rw [this]
    exact hk'
  have hcollected : ∀ hsu : shouldUpdate fs k old_path = true,
      lookupKey (sync_path_change fs st old_path new_path).2.path_mappings
          (newKeyFor fs k old_path new_path)
        = some { m with
            current_path := newKeyFor fs k old_path new_path
            existsFlag := fs.pathExistsOnDisk (newKeyFor fs k old_path new_path) }
      ∧ lookupKey (sync_path_change fs st old_path new_path).2.path_mappings k
        = none := by
    intro hsu
    have humem : (k, newKeyFor fs k old_path new_path, m)
        ∈ collectUpdates fs st.path_mappings old_path new_path :=
      (hup_mem _).mpr ⟨(k, m), hmem, hsu, rfl⟩
    constructor
    · rw [hres, hchar]
      have hfind : (collectUpdates fs st.path_mappings old_path new_path).find?
          (fun u => u.2.1 = newKeyFor fs k old_path new_path)
          = some (k, newKeyFor fs k old_path new_path, m) := by
        apply find?_eq_some_of_unique _ _ _ humem (by simp)
        intro u' hu' hpred
        exact List.inj_on_of_nodup_map hnodup_new hu' humem (by simpa using hpred)
      rw [foldSpec_find_some _ hfind]
      rfl
    · rw [hres, hchar]
      rw [foldSpec_find_none _ (hfind_none k hkmem)]
      rw [if_pos (List.any_eq_true.mpr ⟨_, humem, by simp⟩)]
  refine ⟨?_, ?_, ?_⟩
  · intro hk
    subst hk
    have h1 := newKeyFor_self fs k new_path
    have h2 := hcollected (shouldUpdate_self fs k)
    rw [h1] at h2
    exact ⟨h1, h2.1, h2.2⟩
  · intro hk
    have h1 := newKeyFor_cleanDescendant fs old_path new_path k hold hk
    have h2 := hcollected (shouldUpdate_cleanDescendant fs old_path k hold hk)
    rw [h1] at h2
    exact ⟨h1, h2.1, h2.2⟩
  · intro hk
    rw [hres, hchar]
    rw [foldSpec_find_none _ (hfind_none k hkmem)]
    rw [if_neg ?_]
    · exact hm
    · rw [List.any_eq_true]
      rintro ⟨u, hu, hpred⟩
      rcases (hup_mem u).mp hu with ⟨q, hq, hsu, rfl⟩
      have hq1 : q.1 = k := by simpa using hpred
      rw [hq1] at hsu
      rw [hk] at hsu
      exact absurd hsu (by simp)

/-- Witness for the C1 theorem at the specification's example: indexed
entries /w/src and /w/src/main.x, rename /w/src to /w/source; the index
keys become /w/source and /w/source/main.x with the old keys gone. -/
theorem sync_path_change_renames_keys_witness :
    (lookupKey (sync_path_change ⟨fun _ => false, fun _ => none⟩
        { target_files := []
          path_mappings := [("/w/src", ⟨"/w/src", "/w/src", true, [0]⟩),
            ("/w/src/main.x", ⟨"/w/src/main.x", "/w/src/main.x", true, [0]⟩)]
          watch_paths := ["/w"] } "/w/src" "/w/source").2.path_mappings
        "/w/source"
      = some ⟨"/w/src", "/w/source", false, [0]⟩)
    ∧ (lookupKey (sync_path_change ⟨fun _ => false, fun _ => none⟩
        { target_files := []
          path_mappings := [("/w/src", ⟨"/w/src", "/w/src", true, [0]⟩),
            ("/w/src/main.x", ⟨"/w/src/main.x", "/w/src/main.x", true, [0]⟩)]
          watch_paths := ["/w"] } "/w/src" "/w/source").2.path_mappings
        "/w/source/main.x"
      = some ⟨"/w/src/main.x", "/w/source/main.x", false, [0]⟩)
    ∧ (lookupKey (sync_path_change ⟨fun _ => false, fun _ => none⟩
        { target_files := []
          path_mappings := [("/w/src", ⟨"/w/src", "/w/src", true, [0]⟩),
            ("/w/src/main.x", ⟨"/w/src/main.x", "/w/src/main.x", true, [0]⟩)]
          watch_paths := ["/w"] } "/w/src" "/w/source").2.path_mappings
        "/w/src"
      = none)
    ∧ (lookupKey (sync_path_change ⟨fun _ => false, fun _ => none⟩
        { target_files := []
          path_mappings := [("/w/src", ⟨"/w/src", "/w/src", true, [0]⟩),
            ("/w/src/main.x", ⟨"/w/src/main.x", "/w/src/main.x", true, [0]⟩)]
          watch_paths := ["/w"] } "/w/src" "/w/source").2.path_mappings
        "/w/src/main.x"
      = none) := by
  have h := sync_path_change_renames_keys ⟨fun _ => false, fun _ => none⟩
    { target_files := []
      path_mappings := [("/w/src", ⟨"/w/src", "/w/src", true, [0]⟩),
        ("/w/src/main.x", ⟨"/w/src/main.x", "/w/src/main.x", true, [0]⟩)]
      watch_paths := ["/w"] } "/w/src" "/w/source"
    (by decide) (by decide)
    (by
      intro q hq
      rcases List.mem_cons.mp hq with h1 | h1
      · subst h1
        left
        rfl
      · rcases List.mem_cons.mp h1 with h2 | h2
        · subst h2
          right
          left
          decide
        · simp at h2)
    (by
      intro q hq _
      rcases List.mem_cons.mp hq with h1 | h1
      · subst h1
        decide
      · rcases List.mem_cons.mp h1 with h2 | h2
        · subst h2
          decide
        · simp at h2)
  have hsrc := h "/w/src" ⟨"/w/src", "/w/src", true, [0]⟩ rfl
  have hsub := h "/w/src/main.x" ⟨"/w/src/main.x", "/w/src/main.x", true, [0]⟩ rfl
  have h1 := hsrc.1 rfl
  have h2 := hsub.2.1 (by decide)
  exact ⟨h1.2.1, h2.2.1, h1.2.2, h2.2.2⟩

/-! ### Behavior of sync_path_change on an identical rename (C2) -/

theorem substExact_self (old : String) : ∀ s, substExact old old s = s := by
  intro s
  unfold substExact
  split
  · rename_i h
    rw [h]
  · rfl

mutual

theorem treeMapStrings_id (f : String → String) (hf : ∀ s, f s = s) :
    (v : Tree) → treeMapStrings f v = v
  | .str s => congrArg Tree.str (hf s)
  | .scalar => rfl
  | .seq l => congrArg Tree.seq (treeListMapStrings_id f hf l)
  | .table m => congrArg Tree.table (treeMapMapStrings_id f hf m)

theorem treeListMapStrings_id (f : String → String) (hf : ∀ s, f s = s) :
    (l : TreeList) → treeListMapStrings f l = l
  | .nil => rfl
  | .cons v t => by
    rw [treeListMapStrings, treeMapStrings_id f hf v, treeListMapStrings_id f hf t]

theorem treeMapMapStrings_id (f : String → String) (hf : ∀ s, f s = s) :
    (m : TreeMap) → treeMapMapStrings f m = m
  | .nil => rfl
  | .cons k v t => by
    rw [treeMapMapStrings, treeMapStrings_id f hf v, treeMapMapStrings_id f hf t]

end

theorem strStartsWith_append_drop {line old : String}
    (h : strStartsWith line old = true) :
    old ++ strDrop line old.length = line := by
  rcases List.isPrefixOf_iff_prefix.mp h with ⟨t, ht⟩
  apply string_ext
  rw [String.data_append]
  show old.data ++ (strDrop line old.length).data = line.data
  have : (strDrop line old.length).data = t := by
    show line.data.drop old.length = t
    rw [← ht]
    exact List.drop_left old.data t
  rw [this, ht]

theorem joinLines_rustLines (s : String) (h : strEndsWith s "\n" = true) :
    joinLines (rustLines s) ++ "\n" = s := by
  rcases List.isSuffixOf_iff_suffix.mp h with ⟨t, ht⟩
  have hdata : s.data = t ++ '\n' :: [] := ht.symm
  have hsplit : s.data.splitOn '\n' = t.splitOn '\n' ++ [[]] := by
    rw [hdata, splitOn_append_cons]
    rfl
  have hlines : rustLines s = (t.splitOn '\n').map String.mk := by
    unfold rustLines
    rw [hsplit]
    split
    · simp
    · rename_i hcond
      exact absurd (by simp) hcond
  rw [hlines]
  apply string_ext
  rw [String.data_append]
  show (joinLines ((t.splitOn '\n').map String.mk)).data ++ ['\n'] = s.data
  unfold joinLines
  show List.intercalate ['\n'] (((t.splitOn '\n').map String.mk).map String.data)
      ++ ['\n'] = s.data
  rw [List.map_map, show (String.data ∘ String.mk) = id from funext fun l => rfl,
    List.map_id, List.intercalate_splitOn t '\n', hdata]

theorem update_csv_content_self (s old : String)
    (h : s = "" ∨ strEndsWith s "\n" = true) :
    update_csv_content s old old = s := by
  rcases h with h | h
  · subst h
    rfl
  · cases hl : rustLines s with
    | nil =>
      unfold update_csv_content
      rw [hl]
    | cons header rest =>
      unfold update_csv_content
      rw [hl]
      have hrows : rest.map (fun line =>
          if strStartsWith line old then old ++ strDrop line old.length
          else line) = rest := by
        apply List.map_congr_left ?_ |>.trans (List.map_id rest)
        intro line _
        split
        · rename_i hpos
          exact strStartsWith_append_drop hpos
        · rfl
      show joinLines (header :: rest.map _) ++ "\n" = s
      rw [hrows, ← hl]
      exact joinLines_rustLines s h

/-- Whether a file content's bytes are already in the canonical form its
rewriter produces, as far as the identical rename is concerned: tree
contents always are (the tree stands for its canonical serialization),
csv content must carry the trailing newline the rewriter appends. -/
def goodDisk : Option FileContent → Bool
  | some (.csv s) => s == "" || strEndsWith s "\n"
  | _ => true

theorem updateFileContent_self (old : String) (c : FileContent)
    (hc : goodDisk (some c) = true) :
    updateFileContent old old c = c := by
  cases c with
  | json v =>
    show FileContent.json (updateJsonValue old old v) = FileContent.json v
    rw [updateJsonValue_eq_mapStrings, treeMapStrings_id _ (substExact_self old)]
  | yaml v =>
    show FileContent.yaml (updateYamlValue old old v) = FileContent.yaml v
    rw [updateYamlValue_eq_mapStrings, treeMapStrings_id _ (substExact_self old)]
  | toml v =>
    show FileContent.toml (updateTomlValue old old v) = FileContent.toml v
    rw [updateTomlValue_eq_mapStrings, treeMapStrings_id _ (substExact_self old)]
  | csv s =>
    show FileContent.csv (update_csv_content s old old) = FileContent.csv s
    rw [update_csv_content_self s old ?_]
    unfold goodDisk at hc
    rw [Bool.or_eq_true] at hc
    rcases hc with h | h
    · exact Or.inl (by simpa using h)
    · exact Or.inr h

theorem update_path_self_disk (fs : FS) (tf : TargetFile) (k : String)
    (h : goodDisk tf.disk = true) :
    (tf.update_path fs k k).disk = tf.disk := by
  unfold TargetFile.update_path
  cases hd : tf.disk with
  | none => simp [hd]
  | some c =>
    simp only [hd]
    show some (updateFileContent k k c) = some c
    rw [updateFileContent_self k c (hd ▸ h)]

theorem foldl_updateFileAt_disks (f : TargetFile → TargetFile)
    (hf : ∀ tf, goodDisk tf.disk = true → (f tf).disk = tf.disk)
    (idxs : List Nat) :
    ∀ files : List TargetFile,
      (∀ d ∈ files.map TargetFile.disk, goodDisk d = true) →
      (idxs.foldl (updateFileAt f) files).map TargetFile.disk
        = files.map TargetFile.disk := by
  induction idxs with
  | nil =>
    intro files _
    rfl
  | cons i rest ih =>
    intro files hgood
    rw [List.foldl_cons]
    have hstep : (updateFileAt f files i).map TargetFile.disk
        = files.map TargetFile.disk := by
      unfold updateFileAt
      cases hfi : files[i]? with
      | none => rfl
      | some tf =>
        rw [List.map_set]
        have htf : tf ∈ files := List.getElem?_mem hfi
        have : (f tf).disk = tf.disk :=
          hf tf (hgood tf.disk (List.mem_map.mpr ⟨tf, htf, rfl⟩))
        rw [this]
        apply List.ext_getElem?
        intro n
        by_cases hn : n = i
        · subst hn
          have hlt : n < files.length := by
            by_contra hge
            rw [List.getElem?_eq_none (by omega)] at hfi
            simp at hfi
          rw [List.getElem?_set_self (by simpa using hlt)]
          rw [List.getElem?_map, hfi]
          rfl
        · rw [List.getElem?_set_ne (fun hh => hn hh.symm)]
    rw [ih (updateFileAt f files i) (by rw [hstep]; exact hgood), hstep]

theorem applyUpdates_self_disks (fs : FS) :
    ∀ (upds : List (String × String × PathMapping)),
      (∀ u ∈ upds, u.2.1 = u.1) →
      ∀ st : ManagerState,
        (∀ d ∈ st.target_files.map TargetFile.disk, goodDisk d = true) →
        (upds.foldl (applyOneUpdate fs) st).target_files.map TargetFile.disk
          = st.target_files.map TargetFile.disk
  | [] => by
    intro _ st _
    rfl
  | u :: rest => by
    intro hself st hgood
    rw [List.foldl_cons]
    have hu : u.2.1 = u.1 := hself u (List.mem_cons_self u rest)
    have hstep : (applyOneUpdate fs st u).target_files.map TargetFile.disk
        = st.target_files.map TargetFile.disk := by
      show ((u.2.2.target_files.foldl
          (updateFileAt (fun tf => tf.update_path fs u.1 u.2.1))
          st.target_files).map TargetFile.disk) = _
      rw [hu]
      exact foldl_updateFileAt_disks _
        (fun tf h => update_path_self_disk fs tf u.1 h) _ st.target_files hgood
    rw [applyUpdates_self_disks fs rest
      (fun u' hu' => hself u' (List.mem_cons_of_mem u hu'))
      (applyOneUpdate fs st u) (by rw [hstep]; exact hgood), hstep]

/-- C2 counterexample: for p tracked with a stale exists flag and a csv
owner lacking a trailing newline, sync_path_change(p, p) changes both the
owner's bytes (the rewriter appends a newline) and the path mapping's
exists field (refreshed from disk), contradicting the claim that the
bytes and every mapping field are left unchanged. -/
theorem sync_path_change_idempotence_counterexample :
    (lookupKey ((sync_path_change ⟨fun _ => true, fun _ => none⟩
        { target_files := [{ path := "t.csv"
                             paths := [⟨"/w/a", false, none⟩]
                             disk := some (.csv "path,type\n/w/a,file") }]
          path_mappings := [("/w/a", ⟨"/w/a", "/w/a", false, [0]⟩)]
          watch_paths := ["/w"] } "/w/a" "/w/a").2.path_mappings) "/w/a"
      = some ⟨"/w/a", "/w/a", true, [0]⟩)
    ∧ (lookupKey ([("/w/a", (⟨"/w/a", "/w/a", false, [0]⟩ : PathMapping))]) "/w/a"
      = some ⟨"/w/a", "/w/a", false, [0]⟩)
    ∧ ((⟨"/w/a", "/w/a", true, [0]⟩ : PathMapping)
        ≠ ⟨"/w/a", "/w/a", false, [0]⟩)
    ∧ ((sync_path_change ⟨fun _ => true, fun _ => none⟩
        { target_files := [{ path := "t.csv"
                             paths := [⟨"/w/a", false, none⟩]
                             disk := some (.csv "path,type\n/w/a,file") }]
          path_mappings := [("/w/a", ⟨"/w/a", "/w/a", false, [0]⟩)]
          watch_paths := ["/w"] } "/w/a" "/w/a").2.target_files.map TargetFile.disk
      = [some (.csv "path,type\n/w/a,file\n")])
    ∧ (some (FileContent.csv "path,type\n/w/a,file\n")
        ≠ some (FileContent.csv "path,type\n/w/a,file")) := by
  refine ⟨rfl, rfl, ?_, rfl, ?_⟩
  · intro h
    have := congrArg PathMapping.existsFlag h
    simp at this
  · intro h
    rw [Option.some.injEq, FileContent.csv.injEq] at h
    exact absurd h (by decide)

/-- C2 amended: sync_path_change(p, p) leaves the set of index keys
unchanged and every untouched mapping identical; each matched mapping
keeps its key, original path and owners, with its current path rewritten
to the same key and its exists flag refreshed from the filesystem; and
every target file's on-disk content is unchanged provided each csv
owner's bytes already end with the trailing newline the rewriter appends
(tree-format contents, standing for their canonical serialization, are
always preserved). Stated over states with duplicate-free keys whose
every key is p, a clean descendant of p, or no sub-path of p. -/
theorem sync_path_change_self_noop (fs : FS) (st : ManagerState) (p : String)
    (hold : p.data ≠ [])
    (hnodup : (st.path_mappings.map Prod.fst).Nodup)
    (htri : ∀ q ∈ st.path_mappings,
      q.1 = p ∨ cleanDescendant q.1 p = true ∨ shouldUpdate fs q.1 p = false)
    (hdisk : ∀ d ∈ st.target_files.map TargetFile.disk, goodDisk d = true) :
    ((sync_path_change fs st p p).2.target_files.map TargetFile.disk
        = st.target_files.map TargetFile.disk)
    ∧ (∀ k m, lookupKey st.path_mappings k = some m →
        lookupKey (sync_path_change fs st p p).2.path_mappings k
          = some (if shouldUpdate fs k p = true then
              { m with current_path := k, existsFlag := fs.pathExistsOnDisk k }
            else m))
    ∧ (∀ k, lookupKey st.path_mappings k = none →
        lookupKey (sync_path_change fs st p p).2.path_mappings k = none) := by
  have htri2 : ∀ q ∈ st.path_mappings, shouldUpdate fs q.1 p = true →
      q.1 = p ∨ cleanDescendant q.1 p = true := by
    intro q hq hsu
    rcases htri q hq with h | h | h
    · exact Or.inl h
    · exact Or.inr h
    · rw [h] at hsu
      exact absurd hsu (by simp)
  have hup_mem : ∀ u, u ∈ collectUpdates fs st.path_mappings p p
      ↔ ∃ q ∈ st.path_mappings,
          shouldUpdate fs q.1 p = true
          ∧ u = (q.1, newKeyFor fs q.1 p p, q.2) := by
    intro u
    unfold collectUpdates
    constructor
    · intro hu
      rcases List.mem_map.mp hu with ⟨q, hq, rfl⟩
      have hq' := List.mem_filter.mp hq
      exact ⟨q, hq'.1, by simpa using hq'.2, rfl⟩
    · rintro ⟨q, hq, hsu, rfl⟩
      exact List.mem_map.mpr ⟨q, List.mem_filter.mpr ⟨hq, by simpa using hsu⟩, rfl⟩
  have hself : ∀ u ∈ collectUpdates fs st.path_mappings p p, u.2.1 = u.1 := by
    intro u hu
    rcases (hup_mem u).mp hu with ⟨q, hq, hsu, rfl⟩
    show newKeyFor fs q.1 p p = q.1
    rcases htri2 q hq hsu with h | h
    · rw [h, newKeyFor_self]
    · rw [newKeyFor_cleanDescendant fs p p q.1 hold h]
      exact (cleanDescendant_decomp h).1.symm
  have hnodup_old : ((collectUpdates fs st.path_mappings p p).map
      (fun u => u.1)).Nodup := by
    unfold collectUpdates
    rw [List.map_map]
    exact List.Nodup.sublist (List.Sublist.map _ (List.filter_sublist _)) hnodup
  have hnodup_new : ((collectUpdates fs st.path_mappings p p).map
      (fun u => u.2.1)).Nodup := by
    rw [List.map_congr_left hself]
    exact hnodup_old
  have hcond : ∀ u ∈ collectUpdates fs st.path_mappings p p,
      ∀ u' ∈ collectUpdates fs st.path_mappings p p,
        u.2.1 = u'.1 → u.2.1 = u.1 :=
    fun u hu _ _ _ => hself u hu
  have hchar := lookupKey_applyUpdates fs (collectUpdates fs st.path_mappings p p)
    st hnodup_old hnodup_new hcond
  have hres := sync_path_change_eq_fold fs st p p
  refine ⟨?_, ?_, ?_⟩
  · rw [hres]
    exact applyUpdates_self_disks fs _ hself st hdisk
  · intro k m hm
    have hmem : (k, m) ∈ st.path_mappings := lookupKey_mem hm
    by_cases hsu : shouldUpdate fs k p = true
    · have humem : (k, newKeyFor fs k p p, m) ∈ collectUpdates fs st.path_mappings p p :=
        (hup_mem _).mpr ⟨(k, m), hmem, hsu, rfl⟩
      have hnk : newKeyFor fs k p p = k := hself _ humem
      rw [hres, hchar]
      have hfind : (collectUpdates fs st.path_mappings p p).find?
          (fun u => u.2.1 = k) = some (k, newKeyFor fs k p p, m) := by
        apply find?_eq_some_of_unique _ _ _ humem (by simp [hnk])
        intro u' hu' hpred
        apply List.inj_on_of_nodup_map hnodup_new hu' humem
        show u'.2.1 = (k, newKeyFor fs k p p, m).2.1
        rw [show (k, newKeyFor fs k p p, m).2.1 = newKeyFor fs k p p from rfl, hnk]
        simpa using hpred
      rw [foldSpec_find_some _ hfind, if_pos hsu]
      show some { m with current_path := newKeyFor fs k p p
                         existsFlag := fs.pathExistsOnDisk (newKeyFor fs k p p) } = _
      rw [hnk]
    · rw [hres, hchar]
      have hfind : (collectUpdates fs st.path_mappings p p).find?
          (fun u => u.2.1 = k) = none := by
        rw [List.find?_eq_none]
        intro u hu hpred
        rcases (hup_mem u).mp hu with ⟨q, hq, hsuq, rfl⟩
        have h1 : newKeyFor fs q.1 p p = k := by simpa using hpred
        have h2 : q.1 = k := by
          rw [← h1]
          exact (hself _ hu).symm
        rw [h2] at hsuq
        exact hsu hsuq
      rw [foldSpec_find_none _ hfind]
      rw [if_neg ?_, if_neg hsu]
      · exact hm
      · rw [List.any_eq_true]
        rintro ⟨u, hu, hpred⟩
        rcases (hup_mem u).mp hu with ⟨q, hq, hsuq, rfl⟩
        have h2 : q.1 = k := by simpa using hpred
        rw [h2] at hsuq
        exact hsu hsuq
  · intro k hk
    rw [hres, hchar]
    have hnomem : ∀ u ∈ collectUpdates fs st.path_mappings p p, ¬ u.1 = k := by
      intro u hu hpred
      rcases (hup_mem u).mp hu with ⟨q, hq, _, rfl⟩
      have h2 : q.1 = k := hpred
      have : (lookupKey st.path_mappings k).isSome := by
        unfold lookupKey
        rw [Option.isSome_map']
        exact List.find?_isSome.mpr ⟨q, hq, by simp [h2]⟩
      rw [hk] at this
      simp at this
    have hfind : (collectUpdates fs st.path_mappings p p).find?
        (fun u => u.2.1 = k) = none := by
      rw [List.find?_eq_none]
      intro u hu hpred
      exact hnomem u hu (by rw [← hself u hu]; simpa using hpred)
    rw [foldSpec_find_none _ hfind]
    rw [if_neg ?_]
    · exact hk
    · rw [List.any_eq_true]
      rintro ⟨u, hu, hpred⟩
      exact hnomem u hu (by simpa using hpred)

/-- Witness for the C2 amended theorem: one tracked path with one csv
owner in canonical form; the index keeps its key with exists refreshed
and the disk bytes are unchanged. -/
theorem sync_path_change_self_noop_witness :
    ((sync_path_change ⟨fun _ => true, fun _ => none⟩
        { target_files := [{ path := "t.csv"
                             paths := [⟨"/w/a", false, none⟩]
                             disk := some (.csv "path,type\n/w/a,file\n") }]
          path_mappings := [("/w/a", ⟨"/w/a", "/w/a", false, [0]⟩)]
          watch_paths := ["/w"] } "/w/a" "/w/a").2.target_files.map TargetFile.disk
      = [some (.csv "path,type\n/w/a,file\n")])
    ∧ (lookupKey (sync_path_change ⟨fun _ => true, fun _ => none⟩
        { target_files := [{ path := "t.csv"
                             paths := [⟨"/w/a", false, none⟩]
                             disk := some (.csv "path,type\n/w/a,file\n") }]
          path_mappings := [("/w/a", ⟨"/w/a", "/w/a", false, [0]⟩)]
          watch_paths := ["/w"] } "/w/a" "/w/a").2.path_mappings "/w/a"
      = some ⟨"/w/a", "/w/a", true, [0]⟩) := by
  have h := sync_path_change_self_noop ⟨fun _ => true, fun _ => none⟩
    { target_files := [{ path := "t.csv"
                         paths := [⟨"/w/a", false, none⟩]
                         disk := some (.csv "path,type\n/w/a,file\n") }]
      path_mappings := [("/w/a", ⟨"/w/a", "/w/a", false, [0]⟩)]
      watch_paths := ["/w"] } "/w/a"
    (by decide) (by decide)
    (by
      intro q hq
      rcases List.mem_cons.mp hq with h1 | h1
      · subst h1
        left
        rfl
      · simp at h1)
    (by
      intro d hd
      rcases List.mem_cons.mp hd with h1 | h1
      · subst h1
        decide
      · simp at h1)
  refine ⟨h.1, ?_⟩
  have h2 := h.2.1 "/w/a" ⟨"/w/a", "/w/a", false, [0]⟩ rfl
  rw [h2]
  rw [if_pos (by decide)]

end Chaser
